import Mathlib

/-!
Verification of behavioural properties of a set of Unreal Engine 4.25 source
excerpts.  Each namespace below is a shallow embedding of one C++ source file:
pure fragments become Lean functions over explicit state, machine integers
become `Nat`/`Int` with explicit wrap-around where it matters, and assertion
failures become `Option.none`.  Theorems at the end of the file settle the
specification's claims against these embeddings.
-/

namespace VulkanCommon

/-- `EVulkanBindingType::EType` from VulkanCommon.h: the descriptor binding
kinds, in declaration order, with the `Count` sentinel. -/
inductive EVulkanBindingType
  | PackedUniformBuffer
  | UniformBuffer
  | CombinedImageSampler
  | Sampler
  | Image
  | UniformTexelBuffer
  | StorageImage
  | StorageTexelBuffer
  | StorageBuffer
  | InputAttachment
  | Count
deriving DecidableEq, Repr

/-- `EVulkanBindingType::GetBindingTypeChar`: the single-character code for a
binding kind.  The C++ `default:` branch is `check(0)` — a hard assertion
failure — embedded here as `none`. -/
def getBindingTypeChar : EVulkanBindingType → Option Char
  | .UniformBuffer => some 'b'
  | .CombinedImageSampler => some 'c'
  | .Sampler => some 'p'
  | .Image => some 'w'
  | .UniformTexelBuffer => some 'x'
  | .StorageImage => some 'y'
  | .StorageTexelBuffer => some 'z'
  | .StorageBuffer => some 'v'
  | .InputAttachment => some 'a'
  | _ => none

end VulkanCommon

namespace BytePropertyTrackEditor

/-- The shape of the property found on one bound object's class, as inspected
by `GetEnumForByteTrack`: an enum-backed property (`FEnumProperty`, always with
an enum type), a raw byte property (`FByteProperty`, with an optional
associated enum), or any other property kind.  Enum types are identified by a
numeric id. -/
inductive BoundProperty
  | enumProperty (enum : Nat)
  | byteProperty (enum : Option Nat)
  | otherProperty
deriving DecidableEq

/-- One bound object instance: `property` is the result of
`FindPropertyByName` on its class (`none` when the property does not exist). -/
structure RuntimeObject where
  property : Option BoundProperty
deriving DecidableEq

/-- The loop body of `GetEnumForByteTrack`: the enum contributed by one live
object, if any (a raw byte property without an associated enum, a property of
another kind, and a missing property all contribute nothing). -/
def collectEnum (o : RuntimeObject) : Option Nat :=
  match o.property with
  | some (.enumProperty e) => some e
  | some (.byteProperty oe) => oe
  | _ => none

/-- All enums contributed by the live bound objects, in visit order (dead weak
pointers — `none` entries — are skipped by the loop). -/
def collectedEnums (objs : List (Option RuntimeObject)) : List Nat :=
  (objs.filterMap id).filterMap collectEnum

/-- `GetEnumForByteTrack`: the enums are accumulated into a `TSet` (modelled by
`List.dedup`), and the track enum is the unique element when exactly one
distinct enum was found, `nullptr` (`none`) otherwise. -/
def getEnumForByteTrack (objs : List (Option RuntimeObject)) : Option Nat :=
  let propertyEnums := (collectedEnums objs).dedup
  if propertyEnums.length = 1 then propertyEnums.head? else none

/-- A byte track's enum-type reference (`none` = untyped). -/
structure ByteTrack where
  enum : Option Nat
deriving DecidableEq

/-- Modelled from the spec: the generic per-property track creator
(`FPropertyTrackEditor::AddTrack`, not part of this source set) returns a
freshly created track, which starts untyped. -/
def newByteTrack : ByteTrack := ⟨none⟩

/-- `FBytePropertyTrackEditor::AddTrack`: create the track via the generic
creator, then assign the discovered enum type only when one was found. -/
def addTrack (objs : List (Option RuntimeObject)) : ByteTrack :=
  let track := newByteTrack
  match getEnumForByteTrack objs with
  | some e => { track with enum := some e }
  | none => track

end BytePropertyTrackEditor

namespace K2NodeTimeline

/-- `EEdGraphPinDirection`. -/
inductive PinDirection
  | input
  | output
deriving DecidableEq, Repr

/-- The pin categories `UK2Node_Timeline::AllocateDefaultPins` creates: exec
pins, float pins, struct pins (tagged with the struct used — `FVector` or
`FLinearColor`), and the byte-typed direction pin. -/
inductive PinCategory
  | exec
  | float
  | structVector
  | structLinearColor
  | byte
deriving DecidableEq, Repr

/-- One graph pin as created by `CreatePin` (plus the autogenerated default
value set on the `NewTime` pin). -/
structure Pin where
  direction : PinDirection
  category : PinCategory
  name : String
  defaultValue : Option String := none
deriving DecidableEq, Repr

/-- `UTimelineTemplate` as `AllocateDefaultPins` reads it: the typed track
lists (each track contributing its name) and the cached playback flags. -/
structure TimelineTemplate where
  floatTracks : List String
  vectorTracks : List String
  linearColorTracks : List String
  eventTracks : List String
  bAutoPlay : Bool
  bLoop : Bool
  bReplicated : Bool
  bIgnoreTimeDilation : Bool
deriving DecidableEq

/-- `UK2Node_Timeline::AllocateDefaultPins`: the fixed pins are always
created, in source order; when the node is bound to a template, one output pin
per track follows, typed by the track kind and named by the track. -/
def allocateDefaultPins (timeline : Option TimelineTemplate) : List Pin :=
  [⟨.input, .exec, "Play", none⟩,
   ⟨.input, .exec, "PlayFromStart", none⟩,
   ⟨.input, .exec, "Stop", none⟩,
   ⟨.input, .exec, "Reverse", none⟩,
   ⟨.input, .exec, "ReverseFromEnd", none⟩,
   ⟨.output, .exec, "Update", none⟩,
   ⟨.output, .exec, "Finished", none⟩,
   ⟨.input, .exec, "SetNewTime", none⟩,
   ⟨.input, .float, "NewTime", some "0.0"⟩,
   ⟨.output, .byte, "Direction", none⟩] ++
  (match timeline with
   | none => []
   | some t =>
     (t.floatTracks.map fun n => ⟨.output, .float, n, none⟩) ++
     (t.vectorTracks.map fun n => ⟨.output, .structVector, n, none⟩) ++
     (t.linearColorTracks.map fun n => ⟨.output, .structLinearColor, n, none⟩) ++
     (t.eventTracks.map fun n => ⟨.output, .exec, n, none⟩))

/-- The playback flags cached onto the node by `AllocateDefaultPins` when a
template is bound (`bAutoPlay`, `bLoop`, `bReplicated`,
`bIgnoreTimeDilation`). -/
def cachedFlags (t : TimelineTemplate) : Bool × Bool × Bool × Bool :=
  (t.bAutoPlay, t.bLoop, t.bReplicated, t.bIgnoreTimeDilation)

end K2NodeTimeline

namespace MiscTrace

/-- `ETraceFrameType`: the two frame kinds (`TraceFrameType_Game`,
`TraceFrameType_Rendering`). -/
inductive TraceFrameType
  | game
  | rendering
deriving DecidableEq, Repr

/-- `FMiscTraceInternal::LastFrameCycle`: the last recorded cycle value per
frame kind (a `uint64[TraceFrameType_Count]` array, zero-initialised). -/
structure MiscTraceState where
  lastFrameCycle : TraceFrameType → Nat

/-- The zero-initialised state `{ 0, 0 }`. -/
def initialMiscTraceState : MiscTraceState := ⟨fun _ => 0⟩

/-- Modelled from the spec: `FTraceUtils::Encode7bit` (not in this source set)
7-bit variable-length encodes an unsigned integer: each byte carries the next
7 low bits, with the top bit set whenever more bytes follow, emitted
low-to-high until the remaining value is zero (at least one byte is always
emitted). -/
def encode7bit (v : Nat) : List Nat :=
  let byte := v % 128 + (if 127 < v then 128 else 0)
  if h : v < 128 then [byte]
  else byte :: encode7bit (v / 128)
termination_by v
decreasing_by exact Nat.div_lt_self (by omega) (by norm_num)

/-- One emitted frame record: `BeginGameFrame` / `EndGameFrame` /
`BeginRenderFrame` / `EndRenderFrame`, with its attachment bytes. -/
structure FrameRecord where
  isBegin : Bool
  frameType : TraceFrameType
  attachment : List Nat
deriving DecidableEq

/-- `FMiscTrace::OutputBeginFrame`: a no-op when the `Frame` channel is
disabled; otherwise computes the `uint64` cycle delta against
`LastFrameCycle[FrameType]`, stores the current cycle there, and emits one
begin record of the matching kind whose attachment is the 7-bit encoding of
the delta. -/
def outputBeginFrame (frameChannelEnabled : Bool) (cycle : Nat)
    (frameType : TraceFrameType) (s : MiscTraceState) :
    MiscTraceState × List FrameRecord :=
  if !frameChannelEnabled then (s, [])
  else
    let cycleDiff := (2 ^ 64 + cycle - s.lastFrameCycle frameType) % 2 ^ 64
    let s2 : MiscTraceState :=
      ⟨fun t => if t = frameType then cycle else s.lastFrameCycle t⟩
    (s2, [⟨true, frameType, encode7bit cycleDiff⟩])

/-- `FMiscTrace::OutputEndFrame`: identical to `OutputBeginFrame` except that
the emitted record is an end record of the matching kind (the same
`LastFrameCycle` slot is shared by begin and end of one frame kind). -/
def outputEndFrame (frameChannelEnabled : Bool) (cycle : Nat)
    (frameType : TraceFrameType) (s : MiscTraceState) :
    MiscTraceState × List FrameRecord :=
  if !frameChannelEnabled then (s, [])
  else
    let cycleDiff := (2 ^ 64 + cycle - s.lastFrameCycle frameType) % 2 ^ 64
    let s2 : MiscTraceState :=
      ⟨fun t => if t = frameType then cycle else s.lastFrameCycle t⟩
    (s2, [⟨false, frameType, encode7bit cycleDiff⟩])

end MiscTrace

namespace MovieSceneCameraCut

/-- `UMovieSceneCameraCutSection` as the track manipulates it: the object's
identity (its address), its optional inclusive start / exclusive end frames,
and its camera binding (`FMovieSceneObjectBindingID`). -/
structure CameraCutSection where
  id : Nat
  startFrame : Option Int
  endFrame : Option Int
  camera : Nat
deriving DecidableEq, Repr

/-- `UMovieSceneCameraCutTrack`: the owned section array, the `bCanBlend`
flag, and the two pieces of the owning `UMovieScene` the track reads: the
playback range's discrete exclusive upper bound and the tick resolution
(ticks per second, as a rational `tickResNum / tickResDen`). -/
structure CameraCutTrack where
  sections : List CameraCutSection
  bCanBlend : Bool
  playbackEnd : Int
  tickResNum : Nat
  tickResDen : Nat
deriving DecidableEq, Repr

/-- Which of the two gap-fixup helpers a track operation invoked. -/
inductive FixupKind
  | plain
  | blending
deriving DecidableEq, Repr

/-- The observable steps a camera-cut track operation performs, in call
order: physically removing / adding a section, swapping a camera binding,
running one of the two `MovieSceneHelpers` fixups (with its `bDelete`
argument), and re-sorting the section array. -/
inductive TrackEvent
  | removedSection
  | addedSection
  | swappedBinding
  | ranFixup (kind : FixupKind) (bDelete : Bool)
  | sortedSections
deriving DecidableEq, Repr

/-- The sort predicate on sections: by inclusive start frame (sections with
no start frame first). -/
def sectionLE (a b : CameraCutSection) : Bool :=
  match a.startFrame, b.startFrame with
  | none, _ => true
  | some _, none => false
  | some x, some y => x ≤ y

/-- Modelled from the spec: `MovieSceneHelpers::SortConsecutiveSections` (not
in this source set) re-sorts the section array into consecutive time
order. -/
def sortConsecutiveSections (sections : List CameraCutSection) :
    List CameraCutSection :=
  sections.mergeSort sectionLE

/-- Gap-closing pass over consecutive sections: each section's exclusive end
is brought to the next section's inclusive start. -/
def closeGaps : List CameraCutSection → List CameraCutSection
  | [] => []
  | [a] => [a]
  | a :: b :: rest =>
    (match a.endFrame, b.startFrame with
     | some _, some nb => { a with endFrame := some nb }
     | _, _ => a) :: closeGaps (b :: rest)

/-- Gap-closing pass that preserves overlaps: a section's exclusive end is
extended to the next section's inclusive start only when a gap exists. -/
def closeGapsBlending : List CameraCutSection → List CameraCutSection
  | [] => []
  | [a] => [a]
  | a :: b :: rest =>
    (match a.endFrame, b.startFrame with
     | some ea, some nb => if ea < nb then { a with endFrame := some nb } else a
     | _, _ => a) :: closeGapsBlending (b :: rest)

/-- Modelled from the spec: `MovieSceneHelpers::FixupConsecutiveSections`
(not in this source set) fixes up adjacent sections "to close any resulting
time gaps"; it adjusts section boundaries only — it neither adds nor removes
sections, and leaves camera bindings untouched. -/
def fixupConsecutiveSections (sections : List CameraCutSection)
    (_changed : CameraCutSection) (_bDelete : Bool) : List CameraCutSection :=
  closeGaps sections

/-- Modelled from the spec: `MovieSceneHelpers::FixupConsecutiveBlendingSections`
(not in this source set), the blend-aware fixup: overlapping (blending)
sections are left overlapping and only true gaps are closed; like the plain
fixup it only adjusts boundaries. -/
def fixupConsecutiveBlendingSections (sections : List CameraCutSection)
    (_changed : CameraCutSection) (_bDelete : Bool) : List CameraCutSection :=
  closeGapsBlending sections

/-- The end-time candidate computed by the body of
`UMovieSceneCameraCutTrack::FindEndTimeForCameraCut` before the degenerate
zero-length check: the start of the first section (in array order) beginning
strictly after `startTime`, else the playback range's exclusive upper bound
raised to at least `startTime`. -/
def cameraCutCandidateEnd (t : CameraCutTrack) (startTime : Int) : Int :=
  let e0 := max t.playbackEnd startTime
  match t.sections.find? (fun s => s.startFrame.elim false (fun x => startTime < x)) with
  | some s => s.startFrame.getD e0
  | none => e0

/-- Half of one tick-resolution unit's worth of time in whole ticks.
Modelled from the spec: `(StartTime + .5f * TickResolution).FrameNumber`
advances `StartTime` by `0.5 * tickResNum / tickResDen` frames, floored to a
whole frame number. -/
def halfTickResolution (t : CameraCutTrack) : Int :=
  ((t.tickResNum / (2 * t.tickResDen) : Nat) : Int)

/-- `UMovieSceneCameraCutTrack::FindEndTimeForCameraCut`: the candidate end,
pushed forward by half a tick-resolution unit when it coincides with the
start time. -/
def findEndTimeForCameraCut (t : CameraCutTrack) (startTime : Int) : Int :=
  let e := cameraCutCandidateEnd t startTime
  if startTime = e then startTime + halfTickResolution t else e

/-- The existing-section test in `AddNewCameraCut`: has both frames and its
range is exactly `[startTime, endTime)`. -/
def exactRangeMatch (startTime endTime : Int) (s : CameraCutSection) : Bool :=
  s.startFrame == some startTime && s.endFrame == some endTime

/-- `UMovieSceneCameraCutTrack::AddNewCameraCut`: compute the end time; if an
existing section occupies exactly `[start, end)`, swap its camera binding,
else create and add a new section (`newId` stands for the fresh object's
identity); then sort all sections and run the blend-aware fixup when
`bCanBlend` is set, the plain fixup otherwise.  Returns the updated track and
the steps performed in call order. -/
def addNewCameraCut (t : CameraCutTrack) (cameraBindingID : Nat)
    (startTime : Int) (newId : Nat) : CameraCutTrack × List TrackEvent :=
  let newSectionEndTime := findEndTimeForCameraCut t startTime
  match t.sections.find? (exactRangeMatch startTime newSectionEndTime) with
  | some existing =>
    let secs := t.sections.map fun s =>
      if s.id = existing.id then { s with camera := cameraBindingID } else s
    let sorted := sortConsecutiveSections secs
    let fixed :=
      if t.bCanBlend then
        fixupConsecutiveBlendingSections sorted
          { existing with camera := cameraBindingID } false
      else
        fixupConsecutiveSections sorted
          { existing with camera := cameraBindingID } false
    ({ t with sections := fixed },
     [.swappedBinding, .sortedSections,
      .ranFixup (if t.bCanBlend then .blending else .plain) false])
  | none =>
    let newSection : CameraCutSection :=
      ⟨newId, some startTime, some newSectionEndTime, cameraBindingID⟩
    let secs := t.sections ++ [newSection]
    let sorted := sortConsecutiveSections secs
    let fixed :=
      if t.bCanBlend then
        fixupConsecutiveBlendingSections sorted newSection false
      else
        fixupConsecutiveSections sorted newSection false
    ({ t with sections := fixed },
     [.addedSection, .sortedSections,
      .ranFixup (if t.bCanBlend then .blending else .plain) false])

/-- `UMovieSceneCameraCutTrack::RemoveSection`: the section is removed from
the array first; then, when `bCanBlend` is set, the *plain*
`FixupConsecutiveSections` runs (and the blending one when it is not), with
`bDelete = true`; the array is not re-sorted. -/
def removeSection (t : CameraCutTrack) (sec : CameraCutSection) :
    CameraCutTrack × List TrackEvent :=
  let secs := t.sections.filter fun s => s.id ≠ sec.id
  let fixed :=
    if t.bCanBlend then fixupConsecutiveSections secs sec true
    else fixupConsecutiveBlendingSections secs sec true
  ({ t with sections := fixed },
   [.removedSection, .ranFixup (if t.bCanBlend then .plain else .blending) true])

/-- `UMovieSceneCameraCutTrack::RemoveSectionAt`: the fixup runs first (again
the plain one when `bCanBlend` is set, the blending one when it is not), then
the section at `sectionIndex` is removed and the array is re-sorted. -/
def removeSectionAt (t : CameraCutTrack) (sectionIndex : Nat) :
    CameraCutTrack × List TrackEvent :=
  let sectionToDelete := t.sections.getD sectionIndex ⟨0, none, none, 0⟩
  let fixed :=
    if t.bCanBlend then fixupConsecutiveSections t.sections sectionToDelete true
    else fixupConsecutiveBlendingSections t.sections sectionToDelete true
  let secs := fixed.eraseIdx sectionIndex
  ({ t with sections := sortConsecutiveSections secs },
   [.ranFixup (if t.bCanBlend then .plain else .blending) true,
    .removedSection, .sortedSections])

/-- The fixup kind `AddNewCameraCut` dispatches to for a given `bCanBlend`. -/
def insertionFixupKind (bCanBlend : Bool) : FixupKind :=
  if bCanBlend then .blending else .plain

end MovieSceneCameraCut

namespace AnimTimeline

/-- `FMath::RoundToInt(InFrameRate.AsDecimal())`: round half up. -/
def roundedFPS (frameRate : ℚ) : ℤ := ⌊frameRate + 1 / 2⌋

/-- The fallback step of the common-base loop: starting from the base itself,
take the smallest quotient by 2, 3 or 5 that is positive and smaller than the
current best (`LowestResult`). -/
def lowestGridResult (b : Nat) : Nat :=
  [2, 3, 5].foldl (fun best d => let r := b / d; if 0 < r ∧ r < best then r else best) b

/-- One iteration of the common-base loop in `ComputeGridSpacing`: divide by
2, 3 or 5 when the base is divisible; otherwise move to `lowestGridResult`
when that is smaller; `none` means the loop breaks. -/
def nextGridBase (b : Nat) : Option Nat :=
  if b % 2 = 0 then some (b / 2)
  else if b % 3 = 0 then some (b / 3)
  else if b % 5 = 0 then some (b / 5)
  else
    let lr := lowestGridResult b
    if lr < b then some lr else none

/-- The common-base loop with explicit fuel; each iteration appends the
current base and follows `nextGridBase`.  `none` means the fuel ran out with
the C++ `for (;;)` loop still running. -/
def commonBasesAux : Nat → Nat → Option (List Nat)
  | 0, _ => none
  | fuel + 1, b =>
    match nextGridBase b with
    | none => some [b]
    | some b2 => (commonBasesAux fuel b2).map (fun l => b :: l)

/-- `CommonBases` as `ComputeGridSpacing` uses it after `Algo::Reverse`:
ascending.  Fuel `fps + 1` is enough for every positive `fps` (see
`anim_timeline_grid_loop_termination`). -/
def commonBases (fps : Nat) : List Nat :=
  ((commonBasesAux (fps + 1) fps).getD []).reverse

/-- Modelled from the spec: `Algo::LowerBound` (not in this source set)
returns the index of the first element that is not less than the value. -/
def lowerBoundIdx (l : List Nat) (v : ℤ) : Nat :=
  match l with
  | [] => 0
  | x :: xs => if (x : ℤ) < v then lowerBoundIdx xs v + 1 else 0

/-- The minor-division search loop of `ComputeGridSpacing` over the common
bases before `BaseIndex`: the first base that divides `Base` and keeps each
minor tick at least `minTickPx` wide wins. -/
def minorDivisionsLoop (majorIntervalFrames base : ℤ)
    (majorInterval pixelsPerSecond minTickPx : ℚ) : List Nat → Option ℤ
  | [] => none
  | cb :: rest =>
    if Int.tmod base (cb : ℤ) = 0 then
      if minTickPx ≤ majorInterval /
          ((Int.tdiv majorIntervalFrames (cb : ℤ) : ℤ) : ℚ) * pixelsPerSecond then
        some (Int.tdiv majorIntervalFrames (cb : ℤ))
      else minorDivisionsLoop majorIntervalFrames base majorInterval
        pixelsPerSecond minTickPx rest
    else minorDivisionsLoop majorIntervalFrames base majorInterval
      pixelsPerSecond minTickPx rest

/-- The result of `ComputeGridSpacing`: the major tick interval (in frames
and in seconds), the minor division count, and the `OutMajorInterval != 0`
return value. -/
structure GridSpacingResult where
  majorIntervalFrames : ℤ
  majorInterval : ℚ
  minorDivisions : ℤ
  valid : Bool
deriving DecidableEq

/-- The `Scale` target of `ComputeGridSpacing`:
`FMath::CeilToInt(DesiredMajorTickPx / PixelsPerSecond * InFrameRate.AsDecimal())`. -/
def gridScale (frameRate pixelsPerSecond desiredMajorTickPx : ℚ) : ℤ :=
  ⌈desiredMajorTickPx / pixelsPerSecond * frameRate⌉

/-- `BaseIndex`: the lower bound of the scale in the ascending common bases,
clamped to the last index. -/
def gridBaseIndex (bases : List Nat) (scale : ℤ) : Nat :=
  min (lowerBoundIdx bases scale) (bases.length - 1)

/-- `Base = CommonBases[BaseIndex]`. -/
def gridBase (bases : List Nat) (scale : ℤ) : ℤ :=
  (bases.getD (gridBaseIndex bases scale) 0 : ℤ)

/-- `MajorIntervalFrames = FMath::CeilToInt(Scale / float(Base)) * Base`. -/
def gridMajorFrames (bases : List Nat) (scale : ℤ) : ℤ :=
  ⌈(scale : ℚ) / (gridBase bases scale : ℚ)⌉ * gridBase bases scale

/-- `ComputeGridSpacing` from SAnimTimeline.cpp (floating-point arithmetic
modelled over `ℚ`): build the common bases from the rounded frame rate, pick
the smallest base at least the target scale (clamped to the largest), round
the scale up to a multiple of that base, and search for the largest legible
minor-division count among the earlier bases dividing the chosen one. -/
def computeGridSpacing (frameRate pixelsPerSecond minTickPx desiredMajorTickPx : ℚ) :
    GridSpacingResult :=
  let fps : ℤ := roundedFPS frameRate
  let bases := commonBases fps.toNat
  let scale : ℤ := gridScale frameRate pixelsPerSecond desiredMajorTickPx
  let baseIndex : Nat := gridBaseIndex bases scale
  let base : ℤ := gridBase bases scale
  let majorIntervalFrames : ℤ := gridMajorFrames bases scale
  let majorInterval : ℚ := (majorIntervalFrames : ℚ) * (1 / frameRate)
  let minorDivisions :=
    (minorDivisionsLoop majorIntervalFrames base majorInterval pixelsPerSecond
      minTickPx (bases.take baseIndex)).getD majorIntervalFrames
  ⟨majorIntervalFrames, majorInterval, minorDivisions, decide (majorInterval ≠ 0)⟩

end AnimTimeline

namespace MaterialCachedData

/-- `EMaterialParameterAssociation`, in its declaration order (the two-stage
binary search compares the raw enum values). -/
inductive MaterialParameterAssociation
  | LayerParameter
  | BlendParameter
  | GlobalParameter
deriving DecidableEq, Repr

/-- The underlying integer value of an association. -/
def assocVal : MaterialParameterAssociation → Nat
  | .LayerParameter => 0
  | .BlendParameter => 1
  | .GlobalParameter => 2

/-- An `FName` together with its 64-bit `FHashedName` hash: `hash` stands for
`FHashedName(name).GetHash()` and `salt` for whatever distinguishes two
`FName`s beyond their hash (name equality compares both; the parameter tables
order entries by `hash` alone). -/
structure MaterialName where
  hash : Nat
  salt : Nat
deriving DecidableEq, Repr

/-- `FMaterialParameterInfo`: (name, association, index). -/
structure MaterialParameterInfo where
  name : MaterialName
  association : MaterialParameterAssociation
  index : ℤ
deriving DecidableEq, Repr

/-- The `getD` fallback; never read on the paths the theorems walk. -/
def defaultParameterInfo : MaterialParameterInfo := ⟨⟨0, 0⟩, .LayerParameter, 0⟩

/-- The `CompareFunc` of `FindParameterLowerBoundIndex`: by association raw
value, then by index. -/
def assocIndexLT (a b : MaterialParameterInfo) : Bool :=
  if a.association ≠ b.association then
    decide (assocVal a.association < assocVal b.association)
  else decide (a.index < b.index)

/-- `FMaterialCachedParameterEntry`: the parallel arrays of one parameter
kind's table. -/
structure MaterialCachedParameterEntry where
  nameHashes : List Nat
  parameterInfos : List MaterialParameterInfo
  expressionGuids : List (Option Nat)
  overrides : List Bool
deriving DecidableEq, Repr

/-- An empty table (the state `Reset` leaves each entry in). -/
def emptyEntry : MaterialCachedParameterEntry := ⟨[], [], [], []⟩

/-- Modelled from the spec: `Algo::LowerBound`-style scan (not in this source
set) — the number of leading elements satisfying `isLess`, i.e. the index of
the first element that is not below the probe. -/
def lowerBoundCount (isLess : α → Bool) : List α → Nat
  | [] => 0
  | x :: xs => if isLess x then lowerBoundCount isLess xs + 1 else 0

/-- `TArray::Insert`: insert `x` at index `i`. -/
def listInsertAt (l : List α) (i : Nat) (x : α) : List α :=
  l.take i ++ x :: l.drop i

/-- `FindParameterLowerBoundIndex`: first a lower bound on the name-hash
array; if at least one stored hash equals the probe's, a second lower bound
by (association, index) inside the run of equal hashes. -/
def findParameterLowerBoundIndex (e : MaterialCachedParameterEntry)
    (p : MaterialParameterInfo) : Nat :=
  let nameHash := p.name.hash
  let lowerIndex := lowerBoundCount (fun h => decide (h < nameHash)) e.nameHashes
  if lowerIndex < e.nameHashes.length then
    let upperIndex := lowerIndex +
      lowerBoundCount (fun h => decide (h ≤ nameHash)) (e.nameHashes.drop lowerIndex)
    if 0 < upperIndex - lowerIndex then
      lowerIndex + lowerBoundCount (fun q => assocIndexLT q p)
        ((e.parameterInfos.drop lowerIndex).take (upperIndex - lowerIndex))
    else lowerIndex
  else lowerIndex

/-- `TryAddParameter` on one kind's table.  Expression guids model `FGuid`
(`none` = the invalid `FGuid()`).  Returns the updated table and the inserted
index (`none` = `INDEX_NONE`: the parameter already existed; in that case a
function-override placeholder with no valid guid latches the new guid). -/
def tryAddParameter (e : MaterialCachedParameterEntry)
    (p : MaterialParameterInfo) (expressionGuid : Option Nat)
    (bOverride : Bool) : MaterialCachedParameterEntry × Option Nat :=
  let i := findParameterLowerBoundIndex e p
  if i ≥ e.nameHashes.length ∨ e.parameterInfos.getD i defaultParameterInfo ≠ p then
    (⟨listInsertAt e.nameHashes i p.name.hash,
      listInsertAt e.parameterInfos i p,
      listInsertAt e.expressionGuids i expressionGuid,
      listInsertAt e.overrides i bOverride⟩, some i)
  else
    (if e.overrides.getD i false ∧ e.expressionGuids.getD i none = none then
      { e with expressionGuids := e.expressionGuids.set i expressionGuid }
     else e, none)

/-- `EMaterialParameterType`: the five parameter value kinds. -/
inductive MaterialParameterType
  | Scalar
  | Vector
  | Texture
  | Font
  | RuntimeVirtualTexture
deriving DecidableEq, Repr

/-- `FMaterialCachedParameters`: one table per parameter kind
(`CachedParameters.Entries[(int32)Type]`). -/
structure MaterialCachedParameters where
  scalar : MaterialCachedParameterEntry
  vector : MaterialCachedParameterEntry
  texture : MaterialCachedParameterEntry
  font : MaterialCachedParameterEntry
  runtimeVirtualTexture : MaterialCachedParameterEntry
deriving DecidableEq, Repr

/-- `Entries[(int32)Type]`. -/
def entriesOf (cp : MaterialCachedParameters) :
    MaterialParameterType → MaterialCachedParameterEntry
  | .Scalar => cp.scalar
  | .Vector => cp.vector
  | .Texture => cp.texture
  | .Font => cp.font
  | .RuntimeVirtualTexture => cp.runtimeVirtualTexture

/-- Write back one kind's table. -/
def setEntry (cp : MaterialCachedParameters) :
    MaterialParameterType → MaterialCachedParameterEntry → MaterialCachedParameters
  | .Scalar, e => { cp with scalar := e }
  | .Vector, e => { cp with vector := e }
  | .Texture, e => { cp with texture := e }
  | .Font, e => { cp with font := e }
  | .RuntimeVirtualTexture, e => { cp with runtimeVirtualTexture := e }

/-- `TryAddParameter` as called, with the kind selecting the table. -/
def tryAddParameterOfType (cp : MaterialCachedParameters)
    (ty : MaterialParameterType) (p : MaterialParameterInfo)
    (expressionGuid : Option Nat) (bOverride : Bool) :
    MaterialCachedParameters × Option Nat :=
  let r := tryAddParameter (entriesOf cp ty) p expressionGuid bOverride
  (setEntry cp ty r.1, r.2)

/-- All tables empty (`FMaterialCachedExpressionData::Reset`). -/
def emptyCachedParameters : MaterialCachedParameters :=
  ⟨emptyEntry, emptyEntry, emptyEntry, emptyEntry, emptyEntry⟩

/-- One `TryAddParameter` call as issued by the graph traversal: its kind,
parameter identity, expression guid and override flag. -/
structure ParameterInsertion where
  kind : MaterialParameterType
  info : MaterialParameterInfo
  expressionGuid : Option Nat
  bOverride : Bool
deriving DecidableEq, Repr

/-- A sequence of `TryAddParameter` calls. -/
def insertParameters (cp : MaterialCachedParameters) :
    List ParameterInsertion → MaterialCachedParameters
  | [] => cp
  | r :: rest =>
    insertParameters
      (tryAddParameterOfType cp r.kind r.info r.expressionGuid r.bOverride).1 rest

/-- Strict order on the sort keys `(name hash, association value, index)`. -/
def keyLT (a b : MaterialParameterInfo) : Prop :=
  a.name.hash < b.name.hash ∨
    (a.name.hash = b.name.hash ∧
      (assocVal a.association < assocVal b.association ∨
        (a.association = b.association ∧ a.index < b.index)))

instance : DecidableRel keyLT := fun a b => by unfold keyLT; infer_instance

/-- The ordering invariant exactly as the spec states it, on adjacent rows:
the hash is non-decreasing, and on a hash tie the (association, index) pair
is non-decreasing. -/
def rowLE (a b : Nat × MaterialParameterInfo) : Prop :=
  a.1 ≤ b.1 ∧
    (a.1 = b.1 →
      (assocVal a.2.association < assocVal b.2.association ∨
        (a.2.association = b.2.association ∧ a.2.index ≤ b.2.index)))

/-- Well-formedness of one kind's table: the name-hash array mirrors the
parameter-info array's name hashes, the parallel arrays have equal lengths,
and the rows are strictly increasing in the `(hash, association, index)`
key. -/
def entryWF (e : MaterialCachedParameterEntry) : Prop :=
  e.nameHashes = e.parameterInfos.map (fun q => q.name.hash) ∧
  e.expressionGuids.length = e.parameterInfos.length ∧
  e.overrides.length = e.parameterInfos.length ∧
  List.Pairwise keyLT e.parameterInfos

/-- No stored name collides with `nm`: equal hashes imply equal names. -/
def hashCompatible (e : MaterialCachedParameterEntry) (nm : MaterialName) : Prop :=
  ∀ q ∈ e.parameterInfos, q.name.hash = nm.hash → q.name = nm

end MaterialCachedData

namespace BytePropertyTrackEditor

/-- A nodup list whose members all equal `e`, with `e` a member, is `[e]`. -/
theorem nodup_all_eq_singleton {l : List Nat} {e : Nat} (hn : l.Nodup)
    (he : e ∈ l) (hall : ∀ x ∈ l, x = e) : l = [e] := by
  match l, hn, he with
  | [a], _, he => simp_all
  | a :: b :: t, hn, _ =>
    have ha := hall a (by simp)
    have hb := hall b (by simp)
    subst ha
    rw [hb] at hn
    simp at hn

end BytePropertyTrackEditor

/-- C9: a byte track created by `FBytePropertyTrackEditor::AddTrack` carries
enum type `e` iff `e` is contributed by some live bound object instance and
every contributed enum equals `e` — i.e. exactly one distinct enum type is
found; any other count (zero, or several distinct types) leaves the track
untyped. -/
theorem byte_track_enum_iff_unique
    (objs : List (Option BytePropertyTrackEditor.RuntimeObject)) (e : Nat) :
    (BytePropertyTrackEditor.addTrack objs).enum = some e ↔
      (e ∈ BytePropertyTrackEditor.collectedEnums objs ∧
        ∀ e2 ∈ BytePropertyTrackEditor.collectedEnums objs, e2 = e) := by
  have htrack : (BytePropertyTrackEditor.addTrack objs).enum =
      BytePropertyTrackEditor.getEnumForByteTrack objs := by
    unfold BytePropertyTrackEditor.addTrack
    cases h : BytePropertyTrackEditor.getEnumForByteTrack objs <;>
      simp [BytePropertyTrackEditor.newByteTrack]
  rw [htrack]
  unfold BytePropertyTrackEditor.getEnumForByteTrack
  set l := BytePropertyTrackEditor.collectedEnums objs with hl
  by_cases h1 : l.dedup.length = 1
  · rw [if_pos h1]
    obtain ⟨x, hx⟩ := List.length_eq_one.mp h1
    have hxl : x ∈ l := List.mem_dedup.mp (by rw [hx]; exact List.mem_singleton_self x)
    rw [hx]
    simp only [List.head?_cons, Option.some.injEq]
    constructor
    · rintro rfl
      refine ⟨hxl, fun e2 he2 => ?_⟩
      have h2 : e2 ∈ l.dedup := List.mem_dedup.mpr he2
      rw [hx] at h2
      simpa using h2
    · rintro ⟨he, hall⟩
      exact hall x hxl
  · rw [if_neg h1]
    constructor
    · intro h
      cases h
    · rintro ⟨he, hall⟩
      exfalso
      apply h1
      have hsing : l.dedup = [e] :=
        BytePropertyTrackEditor.nodup_all_eq_singleton l.nodup_dedup
          (List.mem_dedup.mpr he) (fun x hx => hall x (List.mem_dedup.mp hx))
      rw [hsing]
      rfl

/-- C8: `GetBindingTypeChar` maps each listed binding kind to exactly its
single-character code, and the unlisted kinds (`PackedUniformBuffer` and the
`Count` sentinel) hit the `check(0)` assertion rather than any silent
default. -/
theorem binding_type_char_exact :
    VulkanCommon.getBindingTypeChar .UniformBuffer = some 'b' ∧
    VulkanCommon.getBindingTypeChar .CombinedImageSampler = some 'c' ∧
    VulkanCommon.getBindingTypeChar .Sampler = some 'p' ∧
    VulkanCommon.getBindingTypeChar .Image = some 'w' ∧
    VulkanCommon.getBindingTypeChar .UniformTexelBuffer = some 'x' ∧
    VulkanCommon.getBindingTypeChar .StorageImage = some 'y' ∧
    VulkanCommon.getBindingTypeChar .StorageTexelBuffer = some 'z' ∧
    VulkanCommon.getBindingTypeChar .StorageBuffer = some 'v' ∧
    VulkanCommon.getBindingTypeChar .InputAttachment = some 'a' ∧
    VulkanCommon.getBindingTypeChar .PackedUniformBuffer = none ∧
    VulkanCommon.getBindingTypeChar .Count = none ∧
    (∀ t : VulkanCommon.EVulkanBindingType,
      VulkanCommon.getBindingTypeChar t = none ↔
        (t = .PackedUniformBuffer ∨ t = .Count)) := by
  refine ⟨rfl, rfl, rfl, rfl, rfl, rfl, rfl, rfl, rfl, rfl, rfl, fun t => ?_⟩
  cases t <;> simp [VulkanCommon.getBindingTypeChar]

/-- C6 counterexample: for a bound template with no tracks at all the node
does not have `5 + 2 + 1 + 1 = 9` fixed pins — `AllocateDefaultPins` creates
10 fixed pins, because the `SetNewTime` execution input is a sixth
execution-input pin on top of the five transport ones. -/
theorem timeline_fixed_pins_not_nine :
    (K2NodeTimeline.allocateDefaultPins
        (some ⟨[], [], [], [], false, false, false, false⟩)).length ≠
      0 + 0 + 0 + 0 + (5 + 2 + 1 + 1) ∧
    ((K2NodeTimeline.allocateDefaultPins
        (some ⟨[], [], [], [], false, false, false, false⟩)).filter
      (fun p => decide (p.direction = .input ∧ p.category = .exec))).length = 6 := by
  constructor
  · decide
  · decide

/-- C6 (amended): for a bound template with N float, M vector, K linear-color
and J event tracks, `AllocateDefaultPins` creates exactly N+M+K+J track-named
pins of the corresponding pin types — float outputs named by the float
tracks, 3-vector struct outputs by the vector tracks, linear-color struct
outputs by the linear-color tracks, and exec outputs by the event tracks
(after the fixed `Update`/`Finished` exec outputs) — plus the fixed 10 pins:
6 execution inputs (Play, PlayFromStart, Stop, Reverse, ReverseFromEnd,
SetNewTime), 2 execution outputs, 1 float time input and 1 byte direction
output, regardless of track ordering. -/
theorem timeline_pin_track_parity (t : K2NodeTimeline.TimelineTemplate) :
    (K2NodeTimeline.allocateDefaultPins (some t)).length =
      t.floatTracks.length + t.vectorTracks.length +
        t.linearColorTracks.length + t.eventTracks.length + 10 ∧
    ((K2NodeTimeline.allocateDefaultPins (some t)).filter
        (fun p => decide (p.direction = .output ∧ p.category = .float))).map
      K2NodeTimeline.Pin.name = t.floatTracks ∧
    ((K2NodeTimeline.allocateDefaultPins (some t)).filter
        (fun p => decide (p.direction = .output ∧ p.category = .structVector))).map
      K2NodeTimeline.Pin.name = t.vectorTracks ∧
    ((K2NodeTimeline.allocateDefaultPins (some t)).filter
        (fun p => decide (p.direction = .output ∧ p.category = .structLinearColor))).map
      K2NodeTimeline.Pin.name = t.linearColorTracks ∧
    ((K2NodeTimeline.allocateDefaultPins (some t)).filter
        (fun p => decide (p.direction = .output ∧ p.category = .exec))).map
      K2NodeTimeline.Pin.name = "Update" :: "Finished" :: t.eventTracks ∧
    ((K2NodeTimeline.allocateDefaultPins (some t)).filter
        (fun p => decide (p.direction = .input ∧ p.category = .exec))).length = 6 ∧
    ((K2NodeTimeline.allocateDefaultPins (some t)).filter
        (fun p => decide (p.direction = .input ∧ p.category = .float))).length = 1 ∧
    ((K2NodeTimeline.allocateDefaultPins (some t)).filter
        (fun p => decide (p.direction = .output ∧ p.category = .byte))).length = 1 := by
  refine ⟨?_, ?_, ?_, ?_, ?_, ?_, ?_, ?_⟩ <;>
    simp [K2NodeTimeline.allocateDefaultPins, List.filter_append,
      List.filter_map, Function.comp_def, List.length_append] <;> omega

/-- C1: the removal paths do not apply the insertion-side fixup policy.  At a
blending track (`bCanBlend = true`) `AddNewCameraCut` runs the blend-aware
fixup, while `RemoveSection`/`RemoveSectionAt` run the *plain*
`FixupConsecutiveSections`; at a non-blending track the dispatch is likewise
inverted.  `RemoveSection` moreover removes the section *before* running the
fixup and never re-sorts. -/
theorem camera_cut_remove_fixup_inverted :
    let s1 : MovieSceneCameraCut.CameraCutSection := ⟨1, some 0, some 10, 5⟩
    let s2 : MovieSceneCameraCut.CameraCutSection := ⟨2, some 10, some 20, 6⟩
    let tTrue : MovieSceneCameraCut.CameraCutTrack := ⟨[s1, s2], true, 20, 24000, 1⟩
    let tFalse : MovieSceneCameraCut.CameraCutTrack := ⟨[s1, s2], false, 20, 24000, 1⟩
    MovieSceneCameraCut.TrackEvent.ranFixup .blending false ∈
      (MovieSceneCameraCut.addNewCameraCut tTrue 7 0 9).2 ∧
    MovieSceneCameraCut.TrackEvent.ranFixup .plain false ∈
      (MovieSceneCameraCut.addNewCameraCut tFalse 7 0 9).2 ∧
    (MovieSceneCameraCut.removeSection tTrue s1).2 =
      [.removedSection, .ranFixup .plain true] ∧
    (MovieSceneCameraCut.removeSection tFalse s1).2 =
      [.removedSection, .ranFixup .blending true] ∧
    (MovieSceneCameraCut.removeSectionAt tTrue 0).2 =
      [.ranFixup .plain true, .removedSection, .sortedSections] ∧
    (MovieSceneCameraCut.removeSectionAt tFalse 0).2 =
      [.ranFixup .blending true, .removedSection, .sortedSections] ∧
    MovieSceneCameraCut.TrackEvent.sortedSections ∉
      (MovieSceneCameraCut.removeSection tTrue s1).2 := by
  decide

/-- C4: inserting the same (kind, name, association, index) parameter twice
into an empty table — first as a function/layer override carrying the invalid
guid, then from a direct expression carrying a concrete guid — leaves exactly
one entry, holding the second insertion's expression guid, and the second
call reports `INDEX_NONE` (no duplicate row). -/
theorem material_override_latching (p : MaterialCachedData.MaterialParameterInfo)
    (g : Nat) :
    (MaterialCachedData.tryAddParameter
        (MaterialCachedData.tryAddParameter MaterialCachedData.emptyEntry p none true).1
        p (some g) false).1.parameterInfos = [p] ∧
    (MaterialCachedData.tryAddParameter
        (MaterialCachedData.tryAddParameter MaterialCachedData.emptyEntry p none true).1
        p (some g) false).1.expressionGuids = [some g] ∧
    (MaterialCachedData.tryAddParameter
        (MaterialCachedData.tryAddParameter MaterialCachedData.emptyEntry p none true).1
        p (some g) false).2 = none := by
  have h1 : MaterialCachedData.tryAddParameter MaterialCachedData.emptyEntry p none true =
      (⟨[p.name.hash], [p], [none], [true]⟩, some 0) := by
    simp [MaterialCachedData.tryAddParameter, MaterialCachedData.findParameterLowerBoundIndex,
      MaterialCachedData.emptyEntry, MaterialCachedData.lowerBoundCount,
      MaterialCachedData.listInsertAt]
  rw [h1]
  have hlt : ¬ (p.name.hash < p.name.hash) := lt_irrefl _
  have hassoc : MaterialCachedData.assocIndexLT p p = false := by
    simp [MaterialCachedData.assocIndexLT]
  simp [MaterialCachedData.tryAddParameter, MaterialCachedData.findParameterLowerBoundIndex,
    MaterialCachedData.lowerBoundCount, hlt, hassoc]

namespace MiscTrace

/-- `encode7bit` emits at most `k` bytes for values below `2 ^ (7 * k)`. -/
theorem encode7bit_length_le (k : Nat) (hk : 0 < k) :
    ∀ v : Nat, v < 2 ^ (7 * k) → (encode7bit v).length ≤ k := by
  induction k with
  | zero => omega
  | succ k ih =>
    intro v hv
    by_cases hv128 : v < 128
    · rw [encode7bit, dif_pos hv128]
      simp
    · rw [encode7bit, dif_neg hv128]
      simp only [List.length_cons]
      have hk2 : 0 < k := by
        rcases Nat.eq_zero_or_pos k with hk0 | hk0
        · subst hk0
          norm_num at hv
          omega
        · exact hk0
      have hdiv : v / 128 < 2 ^ (7 * k) := by
        have h2 : (7 : Nat) * (k + 1) = 7 * k + 7 := by ring
        rw [h2, pow_add] at hv
        norm_num at hv
        omega
      have := ih hk2 (v / 128) hdiv
      omega

end MiscTrace

/-- C5: for each frame kind, `OutputBeginFrame`/`OutputEndFrame` with the
`Frame` channel disabled emit no record and leave `LastFrameCycle` untouched
for every kind; with the channel enabled each call emits exactly one record
of the matching begin/end kind whose attachment is the 7-bit variable-length
encoding of the `uint64` cycle delta against the last enabled begin/end call
of the same kind (at most 9 bytes whenever the delta is below `2^63`), and
updates only that kind's `LastFrameCycle` slot to the current cycle. -/
theorem output_frame_gating_and_delta (s : MiscTrace.MiscTraceState)
    (ft : MiscTrace.TraceFrameType) (cycle : Nat) :
    (MiscTrace.outputBeginFrame false cycle ft s = (s, [])) ∧
    (MiscTrace.outputEndFrame false cycle ft s = (s, [])) ∧
    (∀ isBegin : Bool,
      let r := if isBegin then MiscTrace.outputBeginFrame true cycle ft s
               else MiscTrace.outputEndFrame true cycle ft s
      r.2 = [⟨isBegin, ft,
        MiscTrace.encode7bit ((2 ^ 64 + cycle - s.lastFrameCycle ft) % 2 ^ 64)⟩] ∧
      r.1.lastFrameCycle ft = cycle ∧
      (∀ t, t ≠ ft → r.1.lastFrameCycle t = s.lastFrameCycle t)) ∧
    (∀ d : Nat, d < 2 ^ 63 → (MiscTrace.encode7bit d).length ≤ 9) := by
  refine ⟨?_, ?_, ?_, ?_⟩
  · simp [MiscTrace.outputBeginFrame]
  · simp [MiscTrace.outputEndFrame]
  · intro isBegin
    cases isBegin <;>
      simp [MiscTrace.outputBeginFrame, MiscTrace.outputEndFrame] <;>
      exact fun t ht hft => absurd hft ht
  · intro d hd
    refine MiscTrace.encode7bit_length_le 9 (by norm_num) d ?_
    have h63 : (7 : Nat) * 9 = 63 := by norm_num
    rw [h63]
    exact hd

namespace AnimTimeline

/-- One loop step from a positive base lands on a strictly smaller positive
base (when it does not break). -/
theorem nextGridBase_pos_lt (b b2 : Nat) (hb : 1 ≤ b)
    (h : nextGridBase b = some b2) : 1 ≤ b2 ∧ b2 < b := by
  unfold nextGridBase lowestGridResult at h
  simp only [List.foldl] at h
  split_ifs at h <;> simp only [Option.some.injEq, reduceCtorEq] at h <;> omega

/-- The common-base loop exits within `b` steps from any positive base. -/
theorem commonBasesAux_isSome_of (fuel : Nat) :
    ∀ b : Nat, 1 ≤ b → b ≤ fuel → (commonBasesAux fuel b).isSome = true := by
  induction fuel with
  | zero => omega
  | succ fuel ih =>
    intro b hb hle
    unfold commonBasesAux
    cases h : nextGridBase b with
    | none => rfl
    | some b2 =>
      have ⟨h1, h2⟩ := nextGridBase_pos_lt b b2 hb h
      have := ih b2 h1 (by omega)
      show (Option.map (fun l => b :: l) (commonBasesAux fuel b2)).isSome = true
      cases hcb : commonBasesAux fuel b2 with
      | none => rw [hcb] at this; exact absurd this (by simp)
      | some l => rfl

/-- From base 0 the loop never exits: 0 is divisible by 2 and `0 / 2 = 0`. -/
theorem commonBasesAux_zero (fuel : Nat) : commonBasesAux fuel 0 = none := by
  induction fuel with
  | zero => rfl
  | succ fuel ih =>
    unfold commonBasesAux
    have h0 : nextGridBase 0 = some 0 := rfl
    rw [h0]
    show Option.map (fun l => 0 :: l) (commonBasesAux fuel 0) = none
    rw [ih]
    rfl

end AnimTimeline

/-- C10: the common-base construction loop of `ComputeGridSpacing` terminates
for every rounded frame rate that is a positive integer — each step strictly
decreases the (positive) base, so `fps + 1` iterations always reach the
break — and positivity is necessary: from a rounded rate of zero the loop
never exits, because zero is divisible by 2 and `0 / 2` is again zero. -/
theorem grid_loop_termination :
    (∀ b b2 : Nat, 1 ≤ b → AnimTimeline.nextGridBase b = some b2 →
      1 ≤ b2 ∧ b2 < b) ∧
    (∀ fps : Nat, 1 ≤ fps →
      (AnimTimeline.commonBasesAux (fps + 1) fps).isSome = true) ∧
    (AnimTimeline.nextGridBase 0 = some 0) ∧
    (∀ fuel : Nat, AnimTimeline.commonBasesAux fuel 0 = none) :=
  ⟨AnimTimeline.nextGridBase_pos_lt,
   fun fps h => AnimTimeline.commonBasesAux_isSome_of (fps + 1) fps h (by omega),
   rfl,
   AnimTimeline.commonBasesAux_zero⟩

namespace MovieSceneCameraCut

/-- The gap-closing fixup touches only section boundaries: the (identity,
camera binding) rows are untouched. -/
theorem closeGaps_idCam (l : List CameraCutSection) :
    (closeGaps l).map (fun s => (s.id, s.camera)) =
      l.map (fun s => (s.id, s.camera)) := by
  induction l with
  | nil => rfl
  | cons a t ih =>
    cases t with
    | nil => rfl
    | cons b t2 =>
      have hstep : closeGaps (a :: b :: t2) =
          (match a.endFrame, b.startFrame with
           | some _, some nb => { a with endFrame := some nb }
           | _, _ => a) :: closeGaps (b :: t2) := rfl
      rw [hstep, List.map_cons, List.map_cons, ih]
      cases ha : a.endFrame <;> cases hb : b.startFrame <;> rfl

/-- Same for the blend-aware fixup. -/
theorem closeGapsBlending_idCam (l : List CameraCutSection) :
    (closeGapsBlending l).map (fun s => (s.id, s.camera)) =
      l.map (fun s => (s.id, s.camera)) := by
  induction l with
  | nil => rfl
  | cons a t ih =>
    cases t with
    | nil => rfl
    | cons b t2 =>
      have hstep : closeGapsBlending (a :: b :: t2) =
          (match a.endFrame, b.startFrame with
           | some ea, some nb => if ea < nb then { a with endFrame := some nb } else a
           | _, _ => a) :: closeGapsBlending (b :: t2) := rfl
      rw [hstep, List.map_cons, List.map_cons, ih]
      cases ha : a.endFrame <;> cases hb : b.startFrame <;> try rfl
      rename_i ea nb
      by_cases hlt : ea < nb <;> simp [hlt]

/-- Either fixup, then: the (id, camera) rows are those of the input. -/
theorem fixupDispatch_idCam (bBlend : Bool) (l : List CameraCutSection)
    (c : CameraCutSection) (bD : Bool) :
    ((if bBlend then fixupConsecutiveBlendingSections l c bD
      else fixupConsecutiveSections l c bD).map (fun s => (s.id, s.camera))) =
      l.map (fun s => (s.id, s.camera)) := by
  cases bBlend <;>
    simp [fixupConsecutiveSections, fixupConsecutiveBlendingSections,
      closeGaps_idCam, closeGapsBlending_idCam]

/-- Sorting then fixing up preserves the multiset of (id, camera) rows. -/
theorem sortFixup_idCam_perm (bBlend : Bool) (l : List CameraCutSection)
    (c : CameraCutSection) (bD : Bool) :
    ((if bBlend then fixupConsecutiveBlendingSections (sortConsecutiveSections l) c bD
      else fixupConsecutiveSections (sortConsecutiveSections l) c bD).map
        (fun s => (s.id, s.camera))).Perm (l.map (fun s => (s.id, s.camera))) := by
  rw [fixupDispatch_idCam]
  exact (List.mergeSort_perm l sectionLE).map _

end MovieSceneCameraCut

namespace MovieSceneCameraCut

/-- C2: `AddNewCameraCut` never produces a duplicate or zero-length section:
an existing section occupying exactly `[start, computed end)` has its camera
binding swapped in place and nothing is added; with no such section exactly
one section (carrying the new binding) is added; and when the candidate end
coincides with the start, `FindEndTimeForCameraCut` pushes the end forward by
half of one tick-resolution unit, which is a positive number of ticks for any
tick resolution of at least two ticks per second, so the computed end then
differs from the start. -/
theorem addNewCameraCut_no_duplicate_no_zero (t : CameraCutTrack)
    (binding : Nat) (startTime : Int) (newId : Nat) :
    (∀ ex, t.sections.find? (exactRangeMatch startTime
        (findEndTimeForCameraCut t startTime)) = some ex →
      (addNewCameraCut t binding startTime newId).1.sections.length =
          t.sections.length ∧
      (ex.id, binding) ∈
        (addNewCameraCut t binding startTime newId).1.sections.map
          (fun s => (s.id, s.camera)) ∧
      ∀ q ∈ (addNewCameraCut t binding startTime newId).1.sections.map
          (fun s => (s.id, s.camera)),
        ∃ s0 ∈ t.sections, q.1 = s0.id ∧
          q.2 = if s0.id = ex.id then binding else s0.camera) ∧
    (t.sections.find? (exactRangeMatch startTime
        (findEndTimeForCameraCut t startTime)) = none →
      (addNewCameraCut t binding startTime newId).1.sections.length =
          t.sections.length + 1 ∧
      (newId, binding) ∈
        (addNewCameraCut t binding startTime newId).1.sections.map
          (fun s => (s.id, s.camera))) ∧
    (cameraCutCandidateEnd t startTime = startTime →
      findEndTimeForCameraCut t startTime = startTime + halfTickResolution t) ∧
    (0 < t.tickResDen → 2 * t.tickResDen ≤ t.tickResNum →
      0 < halfTickResolution t) ∧
    (0 < halfTickResolution t →
      findEndTimeForCameraCut t startTime ≠ startTime) := by
  refine ⟨?_, ?_, ?_, ?_, ?_⟩
  · intro ex hfind
    have hexmem : ex ∈ t.sections := List.mem_of_find?_eq_some hfind
    simp only [addNewCameraCut, hfind]
    have hperm := sortFixup_idCam_perm t.bCanBlend
      (t.sections.map fun s =>
        if s.id = ex.id then { s with camera := binding } else s)
      { ex with camera := binding } false
    have hsecs : (t.sections.map fun s =>
        if s.id = ex.id then { s with camera := binding } else s).map
          (fun s => (s.id, s.camera)) =
        t.sections.map (fun s =>
          (s.id, if s.id = ex.id then binding else s.camera)) := by
      rw [List.map_map]
      congr 1
      funext s
      by_cases h : s.id = ex.id <;> simp [h]
    rw [hsecs] at hperm
    refine ⟨?_, ?_, ?_⟩
    · have := hperm.length_eq
      simpa using this
    · rw [hperm.mem_iff]
      rw [List.mem_map]
      exact ⟨ex, hexmem, by simp⟩
    · intro q hq
      rw [hperm.mem_iff, List.mem_map] at hq
      obtain ⟨s0, hs0, hqeq⟩ := hq
      exact ⟨s0, hs0, by rw [← hqeq], by rw [← hqeq]⟩
  · intro hnone
    simp only [addNewCameraCut, hnone]
    have hperm := sortFixup_idCam_perm t.bCanBlend
      (t.sections ++ [⟨newId, some startTime,
        some (findEndTimeForCameraCut t startTime), binding⟩])
      ⟨newId, some startTime, some (findEndTimeForCameraCut t startTime), binding⟩
      false
    refine ⟨?_, ?_⟩
    · have := hperm.length_eq
      simpa using this
    · rw [hperm.mem_iff]
      simp
  · intro h
    simp [findEndTimeForCameraCut, h]
  · intro h1 h2
    simp only [halfTickResolution]
    have : 1 ≤ t.tickResNum / (2 * t.tickResDen) :=
      (Nat.one_le_div_iff (by omega)).mpr h2
    omega
  · intro hpos
    unfold findEndTimeForCameraCut
    by_cases hc : startTime = cameraCutCandidateEnd t startTime
    · simp only [if_pos hc]
      omega
    · simp only [if_neg hc]
      exact fun h => hc h.symm

end MovieSceneCameraCut

namespace AnimTimeline

theorem lowerBoundIdx_le_length (l : List Nat) (v : ℤ) :
    lowerBoundIdx l v ≤ l.length := by
  induction l with
  | nil => simp [lowerBoundIdx]
  | cons x xs ih =>
    simp only [lowerBoundIdx, List.length_cons]
    split <;> omega

theorem lowerBoundIdx_mono (l : List Nat) {v1 v2 : ℤ} (h : v1 ≤ v2) :
    lowerBoundIdx l v1 ≤ lowerBoundIdx l v2 := by
  induction l with
  | nil => simp [lowerBoundIdx]
  | cons x xs ih =>
    simp only [lowerBoundIdx]
    split <;> split <;> omega

theorem lowerBoundIdx_getD_ge (l : List Nat) (v : ℤ) :
    lowerBoundIdx l v < l.length → v ≤ (l.getD (lowerBoundIdx l v) 0 : ℤ) := by
  induction l with
  | nil => simp [lowerBoundIdx]
  | cons x xs ih =>
    by_cases hx : (x : ℤ) < v
    · simp only [lowerBoundIdx, if_pos hx, List.length_cons, List.getD_cons_succ]
      intro h
      exact ih (by omega)
    · simp only [lowerBoundIdx, if_neg hx, List.getD_cons_zero]
      intro _
      omega

theorem lowerBoundIdx_eq_length_of_all_lt (l : List Nat) (v : ℤ)
    (h : ∀ x ∈ l, (x : ℤ) < v) : lowerBoundIdx l v = l.length := by
  induction l with
  | nil => rfl
  | cons x xs ih =>
    simp only [lowerBoundIdx, List.length_cons]
    rw [if_pos (h x (by simp)), ih (fun y hy => h y (by simp [hy]))]

theorem lowerBoundIdx_lt_length_of_ge (l : List Nat) (v : ℤ) (x : Nat)
    (hx : x ∈ l) (hv : v ≤ (x : ℤ)) : lowerBoundIdx l v < l.length := by
  induction l with
  | nil => simp at hx
  | cons y ys ih =>
    simp only [lowerBoundIdx, List.length_cons]
    split
    · rename_i hy
      rcases List.mem_cons.mp hx with rfl | hmem
      · omega
      · have := ih hmem
        omega
    · omega

theorem chain'_lt_getD_le (l : List Nat) (hs : List.Chain' (· < ·) l)
    {i j : Nat} (hij : i ≤ j) (hj : j < l.length) :
    l.getD i 0 ≤ l.getD j 0 := by
  have hp : List.Pairwise (· < ·) l := List.chain'_iff_pairwise.mp hs
  rcases Nat.eq_or_lt_of_le hij with rfl | hlt
  · omega
  · have hi : i < l.length := by omega
    rw [List.getD_eq_get _ _ hi, List.getD_eq_get _ _ hj]
    exact le_of_lt (List.pairwise_iff_get.mp hp ⟨i, hi⟩ ⟨j, hj⟩ hlt)

theorem chain'_lt_le_getLast? (l : List Nat) (hs : List.Chain' (· < ·) l)
    (m : Nat) (hm : l.getLast? = some m) : ∀ x ∈ l, x ≤ m := by
  intro x hx
  have hne : l ≠ [] := by rintro rfl; simp at hm
  have hp : List.Pairwise (· < ·) l := List.chain'_iff_pairwise.mp hs
  obtain ⟨⟨i, hi⟩, hget⟩ := List.mem_iff_get.mp hx
  have hlast : l.getLast hne = m := by
    have := List.getLast?_eq_getLast l hne
    rw [hm] at this
    exact (Option.some.injEq _ _ ▸ this.symm)
  rw [List.getLast_eq_get] at hlast
  rcases Nat.eq_or_lt_of_le (Nat.le_pred_of_lt hi) with he | hlt
  · rw [← hget, ← hlast]
    have : i = l.length - 1 := he
    simp [this]
  · have := List.pairwise_iff_get.mp hp ⟨i, hi⟩ ⟨l.length - 1, by omega⟩ hlt
    rw [hget, hlast] at this
    exact le_of_lt this

end AnimTimeline

namespace AnimTimeline

/-- Shape of the list built by the common-base loop: it starts at the initial
base, is strictly decreasing, and all entries are positive. -/
theorem commonBasesAux_spec (fuel : Nat) :
    ∀ b l, 1 ≤ b → commonBasesAux fuel b = some l →
      l ≠ [] ∧ l.head? = some b ∧ List.Chain' (fun x y => y < x) l ∧
        ∀ x ∈ l, 1 ≤ x := by
  induction fuel with
  | zero => intro b l _ h; cases h
  | succ fuel ih =>
    intro b l hb h
    unfold commonBasesAux at h
    cases hn : nextGridBase b with
    | none =>
      rw [hn] at h
      cases h
      refine ⟨by simp, rfl, by simp, by simpa using hb⟩
    | some b2 =>
      rw [hn] at h
      have h2 : Option.map (fun l => b :: l) (commonBasesAux fuel b2) = some l := h
      cases hc : commonBasesAux fuel b2 with
      | none => rw [hc] at h2; cases h2
      | some l2 =>
        rw [hc] at h2
        injection h2 with h2
        subst h2
        have ⟨h1, h2⟩ := nextGridBase_pos_lt b b2 hb hn
        obtain ⟨hne2, hhd2, hch2, hpos2⟩ := ih b2 l2 h1 hc
        refine ⟨by simp, rfl, ?_, ?_⟩
        · rw [List.chain'_cons']
          refine ⟨fun y hy => ?_, hch2⟩
          rw [hhd2] at hy
          simp only [Option.mem_def, Option.some.injEq] at hy
          omega
        · intro x hx
          rcases List.mem_cons.mp hx with rfl | hmem
          · exact hb
          · exact hpos2 x hmem

/-- `CommonBases` for a positive rounded rate: non-empty, strictly ascending,
all positive, and ending at the rounded rate itself. -/
theorem commonBases_spec (fps : Nat) (h : 1 ≤ fps) :
    commonBases fps ≠ [] ∧ List.Chain' (· < ·) (commonBases fps) ∧
      (∀ x ∈ commonBases fps, 1 ≤ x) ∧ (commonBases fps).getLast? = some fps := by
  have hsome := commonBasesAux_isSome_of (fps + 1) fps h (by omega)
  cases hc : commonBasesAux (fps + 1) fps with
  | none => rw [hc] at hsome; cases hsome
  | some l =>
    obtain ⟨hne, hhd, hch, hpos⟩ := commonBasesAux_spec (fps + 1) fps l h hc
    unfold commonBases
    rw [hc]
    simp only [Option.getD_some]
    refine ⟨by simpa using hne, ?_, ?_, ?_⟩
    · rw [List.chain'_reverse]
      exact hch
    · intro x hx
      exact hpos x (by simpa using hx)
    · rw [List.getLast?_reverse]
      exact hhd

end AnimTimeline

namespace AnimTimeline

theorem gridBase_pos (bases : List Nat) (hne : bases ≠ [])
    (hpos : ∀ x ∈ bases, 1 ≤ x) (s : ℤ) : 0 < gridBase bases s := by
  unfold gridBase gridBaseIndex
  have hlen : 0 < bases.length := List.length_pos.mpr hne
  have hidx : min (lowerBoundIdx bases s) (bases.length - 1) < bases.length := by
    have := lowerBoundIdx_le_length bases s
    omega
  rw [List.getD_eq_getElem _ _ hidx]
  have hmem := List.getElem_mem hidx
  have := hpos _ hmem
  exact_mod_cast this

theorem gridBase_of_le_last (bases : List Nat) (m : Nat) (hne : bases ≠ [])
    (hpos : ∀ x ∈ bases, 1 ≤ x) (hsort : List.Chain' (· < ·) bases)
    (hlast : bases.getLast? = some m) {s : ℤ} (hs1 : 1 ≤ s) (hsm : s ≤ (m : ℤ)) :
    gridBaseIndex bases s = lowerBoundIdx bases s ∧
      s ≤ gridBase bases s ∧ gridBase bases s ≤ (m : ℤ) ∧
      gridMajorFrames bases s = gridBase bases s := by
  have hmm : m ∈ bases := by
    have hne2 := hne
    have := List.getLast?_eq_getLast bases hne
    rw [hlast] at this
    have hlm : bases.getLast hne = m := by
      injection this.symm with h2
    rw [← hlm]
    exact List.getLast_mem hne
  have hlb : lowerBoundIdx bases s < bases.length :=
    lowerBoundIdx_lt_length_of_ge bases s m hmm hsm
  have hidx : gridBaseIndex bases s = lowerBoundIdx bases s := by
    unfold gridBaseIndex
    omega
  have hbge : s ≤ gridBase bases s := by
    unfold gridBase
    rw [hidx]
    exact lowerBoundIdx_getD_ge bases s hlb
  have hmemD : bases.getD (gridBaseIndex bases s) 0 ∈ bases := by
    have hidx2 : gridBaseIndex bases s < bases.length := by rw [hidx]; exact hlb
    rw [List.getD_eq_getElem _ _ hidx2]
    exact List.getElem_mem hidx2
  have hble : gridBase bases s ≤ (m : ℤ) := by
    unfold gridBase
    have := chain'_lt_le_getLast? bases hsort m hlast _ hmemD
    exact_mod_cast this
  refine ⟨hidx, hbge, hble, ?_⟩
  unfold gridMajorFrames
  have hbpos : 0 < gridBase bases s := gridBase_pos bases hne hpos s
  have hceil : ⌈(s : ℚ) / (gridBase bases s : ℚ)⌉ = 1 := by
    have hbq : (0 : ℚ) < (gridBase bases s : ℚ) := by exact_mod_cast hbpos
    have hsq : (0 : ℚ) < (s : ℚ) := by exact_mod_cast hs1
    rw [Int.ceil_eq_iff]
    constructor
    · have := div_pos hsq hbq
      push_cast
      linarith
    · push_cast
      rw [div_le_one hbq]
      exact_mod_cast hbge
  rw [hceil, one_mul]

end AnimTimeline

namespace AnimTimeline

theorem gridBase_of_gt_last (bases : List Nat) (m : Nat) (hne : bases ≠ [])
    (hsort : List.Chain' (· < ·) bases) (hlast : bases.getLast? = some m)
    {s : ℤ} (hsm : (m : ℤ) < s) :
    gridBaseIndex bases s = bases.length - 1 ∧ gridBase bases s = (m : ℤ) := by
  have hlen : 0 < bases.length := List.length_pos.mpr hne
  have hall : ∀ x ∈ bases, (x : ℤ) < s := by
    intro x hx
    have := chain'_lt_le_getLast? bases hsort m hlast x hx
    omega
  have hlb : lowerBoundIdx bases s = bases.length :=
    lowerBoundIdx_eq_length_of_all_lt bases s hall
  have hidx : gridBaseIndex bases s = bases.length - 1 := by
    unfold gridBaseIndex
    omega
  refine ⟨hidx, ?_⟩
  unfold gridBase
  rw [hidx]
  have hl2 : bases.length - 1 < bases.length := by omega
  rw [List.getD_eq_getElem _ _ hl2]
  have := List.getLast?_eq_getLast bases hne
  rw [hlast] at this
  have hlm : bases.getLast hne = m := by injection this.symm with h2
  rw [List.getLast_eq_getElem] at hlm
  rw [hlm]

/-- Monotonicity of the major interval (in frames) in the target scale. -/
theorem gridMajorFrames_mono (bases : List Nat) (m : Nat)
    (hne : bases ≠ []) (hpos : ∀ x ∈ bases, 1 ≤ x)
    (hsort : List.Chain' (· < ·) bases) (hlast : bases.getLast? = some m)
    {s1 s2 : ℤ} (hs1 : 1 ≤ s1) (h12 : s1 ≤ s2) :
    gridMajorFrames bases s1 ≤ gridMajorFrames bases s2 := by
  have hmpos : 1 ≤ m := by
    have hmm : m ∈ bases := by
      have := List.getLast?_eq_getLast bases hne
      rw [hlast] at this
      have hlm : bases.getLast hne = m := by injection this.symm with h2
      rw [← hlm]
      exact List.getLast_mem hne
    exact hpos m hmm
  by_cases h2m : s2 ≤ (m : ℤ)
  · -- both scales within the table: major = base, and base is monotone
    obtain ⟨hi1, hge1, _, hmaj1⟩ :=
      gridBase_of_le_last bases m hne hpos hsort hlast hs1 (le_trans h12 h2m)
    obtain ⟨hi2, hge2, _, hmaj2⟩ :=
      gridBase_of_le_last bases m hne hpos hsort hlast (le_trans hs1 h12) h2m
    rw [hmaj1, hmaj2]
    unfold gridBase
    rw [hi1, hi2]
    have hmono := lowerBoundIdx_mono bases h12
    have hlb2 : lowerBoundIdx bases s2 < bases.length := by
      have hmm : m ∈ bases := by
        have := List.getLast?_eq_getLast bases hne
        rw [hlast] at this
        have hlm : bases.getLast hne = m := by injection this.symm with h2
        rw [← hlm]
        exact List.getLast_mem hne
      exact lowerBoundIdx_lt_length_of_ge bases s2 m hmm h2m
    have := chain'_lt_getD_le bases hsort hmono hlb2
    exact_mod_cast this
  · push_neg at h2m
    have hbpos2 : (0 : ℚ) < ((m : ℤ) : ℚ) := by
      have : (0 : ℤ) < (m : ℤ) := by exact_mod_cast hmpos
      exact_mod_cast this
    obtain ⟨_, hbase2⟩ := gridBase_of_gt_last bases m hne hsort hlast h2m
    have hceil2 : 1 ≤ ⌈(s2 : ℚ) / ((m : ℤ) : ℚ)⌉ := by
      have hpos2 : (0 : ℚ) < (s2 : ℚ) := by
        have : (0 : ℤ) < s2 := by omega
        exact_mod_cast this
      have := Int.ceil_pos.mpr (div_pos hpos2 hbpos2)
      omega
    by_cases h1m : s1 ≤ (m : ℤ)
    · -- s1 inside the table, s2 beyond it
      obtain ⟨_, _, hle1, hmaj1⟩ :=
        gridBase_of_le_last bases m hne hpos hsort hlast hs1 h1m
      rw [hmaj1]
      unfold gridMajorFrames
      rw [hbase2]
      calc gridBase bases s1 ≤ (m : ℤ) := hle1
        _ ≤ ⌈(s2 : ℚ) / ((m : ℤ) : ℚ)⌉ * (m : ℤ) := by
          nlinarith [hceil2]
    · -- both beyond the table: base is the last entry for both
      push_neg at h1m
      obtain ⟨_, hbase1⟩ := gridBase_of_gt_last bases m hne hsort hlast h1m
      unfold gridMajorFrames
      rw [hbase1, hbase2]
      have hdiv : (s1 : ℚ) / ((m : ℤ) : ℚ) ≤ (s2 : ℚ) / ((m : ℤ) : ℚ) := by
        gcongr
      have := Int.ceil_le_ceil hdiv  -- hmm name/signature
      have hm0 : (0 : ℤ) ≤ (m : ℤ) := by exact_mod_cast Nat.zero_le m
      exact mul_le_mul_of_nonneg_right this hm0

end AnimTimeline


namespace AnimTimeline

/-- Whatever the minor-division search returns divides the major interval in
frames: a hit is `MajorIntervalFrames / cb` for a base `cb` dividing `Base`
(which itself divides `MajorIntervalFrames`), and the fallback is the major
interval itself. -/
theorem minorDivisionsLoop_dvd (base majorIntervalFrames : ℤ)
    (majorInterval pixelsPerSecond minTickPx : ℚ)
    (hbpos : 0 < base) (hmf0 : 0 ≤ majorIntervalFrames)
    (hbdvd : base ∣ majorIntervalFrames) :
    ∀ l : List Nat,
      (minorDivisionsLoop majorIntervalFrames base majorInterval
        pixelsPerSecond minTickPx l).getD majorIntervalFrames ∣
        majorIntervalFrames := by
  intro l
  induction l with
  | nil => simp [minorDivisionsLoop]
  | cons cb rest ih =>
    rw [minorDivisionsLoop]
    split
    · rename_i hmod
      split
      · rename_i hwide
        simp only [Option.getD_some]
        have hcb0 : (0 : ℤ) ≤ (cb : ℤ) := by exact_mod_cast Nat.zero_le cb
        have hmod2 : base % (cb : ℤ) = 0 := by
          rw [← Int.tmod_eq_emod (le_of_lt hbpos) hcb0]
          exact hmod
        have hcbdvd : (cb : ℤ) ∣ base := Int.dvd_of_emod_eq_zero hmod2
        have hcbmf : (cb : ℤ) ∣ majorIntervalFrames := hcbdvd.trans hbdvd
        have htd : Int.tdiv majorIntervalFrames (cb : ℤ) =
            majorIntervalFrames / (cb : ℤ) := Int.tdiv_eq_ediv hmf0 hcb0
        rw [htd]
        exact ⟨(cb : ℤ), (Int.ediv_mul_cancel hcbmf).symm⟩
      · exact ih
    · exact ih

end AnimTimeline

/-- C7: for a frame rate whose rounded value is a positive integer and
positive pixel widths, `ComputeGridSpacing` is antitone in `PixelsPerSecond`
with respect to the major interval measured in frames — raising the pixels
per second never raises `MajorIntervalFrames` — and the returned
minor-division count always divides the major interval in frames. -/
theorem compute_grid_spacing_antitone_divides
    (frameRate p1 p2 minTickPx desiredMajorTickPx : ℚ)
    (hfps : 1 ≤ AnimTimeline.roundedFPS frameRate)
    (hp1 : 0 < p1) (h12 : p1 ≤ p2) (hd : 0 < desiredMajorTickPx) :
    (AnimTimeline.computeGridSpacing frameRate p2 minTickPx
        desiredMajorTickPx).majorIntervalFrames ≤
      (AnimTimeline.computeGridSpacing frameRate p1 minTickPx
        desiredMajorTickPx).majorIntervalFrames ∧
    (AnimTimeline.computeGridSpacing frameRate p1 minTickPx
        desiredMajorTickPx).minorDivisions ∣
      (AnimTimeline.computeGridSpacing frameRate p1 minTickPx
        desiredMajorTickPx).majorIntervalFrames := by
  have hfr : (1 : ℚ) / 2 ≤ frameRate := by
    have hfps2 := hfps
    unfold AnimTimeline.roundedFPS at hfps2
    have := Int.le_floor.mp hfps2
    push_cast at this
    linarith
  have hfrpos : (0 : ℚ) < frameRate := by linarith
  set fps := (AnimTimeline.roundedFPS frameRate).toNat with hfpsdef
  have hfps1 : 1 ≤ fps := by
    rw [hfpsdef]
    omega
  obtain ⟨hne, hsort, hpos, hlast⟩ := AnimTimeline.commonBases_spec fps hfps1
  set bases := AnimTimeline.commonBases fps with hbases
  have hscale_pos : ∀ p : ℚ, 0 < p →
      1 ≤ AnimTimeline.gridScale frameRate p desiredMajorTickPx := by
    intro p hp
    unfold AnimTimeline.gridScale
    have hq : (0 : ℚ) < desiredMajorTickPx / p * frameRate :=
      mul_pos (div_pos hd hp) hfrpos
    have := Int.ceil_pos.mpr hq
    omega
  have hscale_mono : AnimTimeline.gridScale frameRate p2 desiredMajorTickPx ≤
      AnimTimeline.gridScale frameRate p1 desiredMajorTickPx := by
    unfold AnimTimeline.gridScale
    apply Int.ceil_le_ceil
    have h21 : desiredMajorTickPx / p2 ≤ desiredMajorTickPx / p1 := by gcongr
    exact mul_le_mul_of_nonneg_right h21 (le_of_lt hfrpos)
  constructor
  · show AnimTimeline.gridMajorFrames bases
        (AnimTimeline.gridScale frameRate p2 desiredMajorTickPx) ≤
      AnimTimeline.gridMajorFrames bases
        (AnimTimeline.gridScale frameRate p1 desiredMajorTickPx)
    exact AnimTimeline.gridMajorFrames_mono bases fps hne hpos hsort hlast
      (hscale_pos p2 (lt_of_lt_of_le hp1 h12)) hscale_mono
  · have hs1 := hscale_pos p1 hp1
    set s1 := AnimTimeline.gridScale frameRate p1 desiredMajorTickPx with hs1def
    have hbpos : 0 < AnimTimeline.gridBase bases s1 :=
      AnimTimeline.gridBase_pos bases hne hpos s1
    have hceil1 : 1 ≤ ⌈(s1 : ℚ) / (AnimTimeline.gridBase bases s1 : ℚ)⌉ := by
      have hq1 : (0 : ℚ) < (s1 : ℚ) := by exact_mod_cast hs1
      have hq2 : (0 : ℚ) < (AnimTimeline.gridBase bases s1 : ℚ) := by
        exact_mod_cast hbpos
      have := Int.ceil_pos.mpr (div_pos hq1 hq2)
      omega
    have hmf0 : 0 ≤ AnimTimeline.gridMajorFrames bases s1 := by
      unfold AnimTimeline.gridMajorFrames
      exact mul_nonneg (by omega) (le_of_lt hbpos)
    have hbdvd : AnimTimeline.gridBase bases s1 ∣
        AnimTimeline.gridMajorFrames bases s1 :=
      dvd_mul_left _ _
    exact AnimTimeline.minorDivisionsLoop_dvd _ _ _ _ _ hbpos hmf0 hbdvd _

/-- Witness for C7 at a 30 fps rate, pixel widths 10 → 20, tick sizes 50 and
100. -/
theorem compute_grid_spacing_antitone_divides_witness :
    (AnimTimeline.computeGridSpacing 30 20 50 100).majorIntervalFrames ≤
      (AnimTimeline.computeGridSpacing 30 10 50 100).majorIntervalFrames ∧
    (AnimTimeline.computeGridSpacing 30 10 50 100).minorDivisions ∣
      (AnimTimeline.computeGridSpacing 30 10 50 100).majorIntervalFrames :=
  compute_grid_spacing_antitone_divides 30 10 20 50 100
    (by unfold AnimTimeline.roundedFPS; norm_num)
    (by norm_num) (by norm_num) (by norm_num)

namespace MaterialCachedData

theorem assocVal_inj {a b : MaterialParameterAssociation}
    (h : assocVal a = assocVal b) : a = b := by
  cases a <;> cases b <;> first | rfl | simp [assocVal] at h

theorem keyLT_trans {a b c : MaterialParameterInfo}
    (h1 : keyLT a b) (h2 : keyLT b c) : keyLT a c := by
  unfold keyLT at *
  rcases h1 with h1 | ⟨h1e, h1r⟩ <;> rcases h2 with h2 | ⟨h2e, h2r⟩
  · exact Or.inl (lt_trans h1 h2)
  · exact Or.inl (h2e ▸ h1)
  · exact Or.inl (h1e ▸ h2)
  · refine Or.inr ⟨h1e.trans h2e, ?_⟩
    rcases h1r with h1r | ⟨h1a, h1i⟩ <;> rcases h2r with h2r | ⟨h2a, h2i⟩
    · exact Or.inl (lt_trans h1r h2r)
    · exact Or.inl (h2a ▸ h1r)
    · exact Or.inl (h1a ▸ h2r)
    · exact Or.inr ⟨h1a.trans h2a, lt_trans h1i h2i⟩

theorem keyLT_irrefl (a : MaterialParameterInfo) : ¬ keyLT a a := by
  unfold keyLT
  push_neg
  exact ⟨le_refl _, fun _ => ⟨le_refl _, fun _ => le_refl _⟩⟩

theorem keyLT_hash_le {a b : MaterialParameterInfo} (h : keyLT a b) :
    a.name.hash ≤ b.name.hash := by
  rcases h with h | ⟨he, _⟩
  · omega
  · omega

theorem key_eq_of_not_lt {a b : MaterialParameterInfo}
    (h1 : ¬ keyLT a b) (h2 : ¬ keyLT b a) :
    a.name.hash = b.name.hash ∧ a.association = b.association ∧
      a.index = b.index := by
  unfold keyLT at h1 h2
  push_neg at h1 h2
  obtain ⟨h1h, h1r⟩ := h1
  obtain ⟨h2h, h2r⟩ := h2
  have hh : a.name.hash = b.name.hash := by omega
  obtain ⟨h1a, h1i⟩ := h1r hh
  obtain ⟨h2a, h2i⟩ := h2r hh.symm
  have ha : a.association = b.association := assocVal_inj (by omega)
  refine ⟨hh, ha, ?_⟩
  have := h1i ha
  have := h2i ha.symm
  omega

theorem assocIndexLT_true_iff (a b : MaterialParameterInfo) :
    assocIndexLT a b = true ↔
      (assocVal a.association < assocVal b.association ∨
        (a.association = b.association ∧ a.index < b.index)) := by
  unfold assocIndexLT
  by_cases h : a.association = b.association
  · rw [if_neg (by simp [h])]
    simp only [decide_eq_true_eq]
    constructor
    · intro hi
      exact Or.inr ⟨h, hi⟩
    · rintro (hav | ⟨_, hi⟩)
      · rw [h] at hav
        exact absurd hav (lt_irrefl _)
      · exact hi
  · rw [if_pos h]
    simp only [decide_eq_true_eq]
    constructor
    · exact Or.inl
    · rintro (hav | ⟨ha, _⟩)
      · exact hav
      · exact absurd ha h

end MaterialCachedData

namespace MaterialCachedData

theorem keyLT_of_hash_lt {a b : MaterialParameterInfo}
    (h : a.name.hash < b.name.hash) : keyLT a b := Or.inl h

theorem keyLT_alt_of_hash_eq {a b : MaterialParameterInfo} (h : keyLT a b)
    (hh : a.name.hash = b.name.hash) : assocIndexLT a b = true := by
  rcases h with h | ⟨_, hr⟩
  · omega
  · exact (assocIndexLT_true_iff a b).mpr hr

theorem not_keyLT_hash_ge {a b : MaterialParameterInfo} (h : ¬ keyLT a b) :
    b.name.hash ≤ a.name.hash := by
  by_contra hc
  exact h (Or.inl (by omega))

theorem not_keyLT_alt_false {a b : MaterialParameterInfo} (h : ¬ keyLT a b)
    (hh : a.name.hash = b.name.hash) : assocIndexLT a b = false := by
  by_contra hc
  rw [Bool.not_eq_false, assocIndexLT_true_iff] at hc
  exact h (Or.inr ⟨hh, hc⟩)

theorem lbc_le_length (isLess : α → Bool) (l : List α) :
    lowerBoundCount isLess l ≤ l.length := by
  induction l with
  | nil => simp [lowerBoundCount]
  | cons x xs ih =>
    simp only [lowerBoundCount, List.length_cons]
    split <;> omega

theorem lbc_append_all (isLess : α → Bool) (xs ys : List α)
    (h : ∀ x ∈ xs, isLess x = true) :
    lowerBoundCount isLess (xs ++ ys) =
      xs.length + lowerBoundCount isLess ys := by
  induction xs with
  | nil => simp
  | cons x xs ih =>
    simp only [List.cons_append, lowerBoundCount, List.length_cons]
    rw [if_pos (h x (by simp))]
    show lowerBoundCount isLess (xs ++ ys) + 1 = xs.length + 1 + lowerBoundCount isLess ys
    rw [ih (fun y hy => h y (by simp [hy]))]
    omega

theorem lbc_eq_zero_of_all (isLess : α → Bool) (ys : List α)
    (h : ∀ y ∈ ys, isLess y = false) : lowerBoundCount isLess ys = 0 := by
  cases ys with
  | nil => rfl
  | cons y t =>
    simp only [lowerBoundCount]
    rw [if_neg (by rw [h y (by simp)]; simp)]

/-- Everything the `dropWhile` of a sorted list keeps satisfies `P`, provided
the first kept element does (`hhead`, using an ambient fact `Q` of the whole
list) and `P` propagates forward along the order. -/
theorem sorted_dropWhile_all {l : List MaterialParameterInfo}
    (hs : List.Pairwise keyLT l) (Q P : MaterialParameterInfo → Prop)
    (pb : MaterialParameterInfo → Bool)
    (hamb : ∀ x ∈ l, Q x)
    (hhead : ∀ x, Q x → pb x = false → P x)
    (hup : ∀ x y, P x → keyLT x y → P y) :
    ∀ b ∈ l.dropWhile pb, P b := by
  intro b hb
  have hsub : (l.dropWhile pb).Sublist l := List.dropWhile_sublist pb
  have hsdw : List.Pairwise keyLT (l.dropWhile pb) :=
    List.Pairwise.sublist hsub hs
  cases hdw : l.dropWhile pb with
  | nil => rw [hdw] at hb; cases hb
  | cons hd tl =>
    rw [hdw] at hb hsdw
    have hhd_mem : hd ∈ l := hsub.subset (by rw [hdw]; simp)
    have hpbhd : pb hd = false := by
      have := List.head?_dropWhile_not pb l
      rw [hdw] at this
      exact this
    have hPhd : P hd := hhead hd (hamb hd hhd_mem) hpbhd
    rcases List.mem_cons.mp hb with rfl | hbtl
    · exact hPhd
    · exact hup hd b hPhd ((List.pairwise_cons.mp hsdw).1 b hbtl)

end MaterialCachedData

namespace MaterialCachedData

/-- `FindParameterLowerBoundIndex` lands exactly at the end of the maximal
prefix of rows whose key is strictly below the probe's `(hash, association,
index)` key. -/
theorem find_eq_takeWhile_length (e : MaterialCachedParameterEntry)
    (hm : e.nameHashes = e.parameterInfos.map (fun q => q.name.hash))
    (hs : List.Pairwise keyLT e.parameterInfos)
    (p : MaterialParameterInfo) :
    findParameterLowerBoundIndex e p =
      (e.parameterInfos.takeWhile (fun q => decide (keyLT q p))).length := by
  set infos := e.parameterInfos with hinf
  set kb : MaterialParameterInfo → Bool := fun q => decide (keyLT q p) with hkb
  set A := infos.takeWhile kb with hAdef
  set B := infos.dropWhile kb with hBdef
  have hAB : A ++ B = infos := List.takeWhile_append_dropWhile kb infos
  have hAkey : ∀ a ∈ A, keyLT a p := by
    intro a ha
    have := List.mem_takeWhile_imp ha
    rw [hkb] at this
    exact of_decide_eq_true this
  have hBkey : ∀ b ∈ B, ¬ keyLT b p := by
    refine sorted_dropWhile_all hs (fun _ => True) (fun x => ¬ keyLT x p) kb
      (fun _ _ => trivial) ?_ ?_
    · intro x _ hx
      rw [hkb] at hx
      exact of_decide_eq_false hx
    · exact fun x y hPx hxy hyp => hPx (keyLT_trans hxy hyp)
  -- split the below-prefix by hash
  set hb : MaterialParameterInfo → Bool :=
    fun q => decide (q.name.hash < p.name.hash) with hhbdef
  set A1 := A.takeWhile hb with hA1def
  set A2 := A.dropWhile hb with hA2def
  have hA12 : A1 ++ A2 = A := List.takeWhile_append_dropWhile hb A
  have hsA : List.Pairwise keyLT A :=
    List.Pairwise.sublist (List.takeWhile_sublist kb) hs
  have hA1lt : ∀ q ∈ A1, q.name.hash < p.name.hash := by
    intro q hq
    have := List.mem_takeWhile_imp hq
    rw [hhbdef] at this
    exact of_decide_eq_true this
  have hA2ge : ∀ q ∈ A2, p.name.hash ≤ q.name.hash := by
    refine sorted_dropWhile_all hsA (fun _ => True)
      (fun x => p.name.hash ≤ x.name.hash) hb (fun _ _ => trivial) ?_ ?_
    · intro x _ hx
      rw [hhbdef] at hx
      have := of_decide_eq_false hx
      omega
    · intro x y hPx hxy
      have := keyLT_hash_le hxy
      omega
  have hA2mem : ∀ q ∈ A2, q ∈ A := fun q hq =>
    (List.dropWhile_sublist hb).subset hq
  have hA2eq : ∀ q ∈ A2, q.name.hash = p.name.hash := by
    intro q hq
    have h1 := hA2ge q hq
    have h2 := keyLT_hash_le (hAkey q (hA2mem q hq))
    omega
  have hA2alt : ∀ q ∈ A2, assocIndexLT q p = true := fun q hq =>
    keyLT_alt_of_hash_eq (hAkey q (hA2mem q hq)) (hA2eq q hq)
  -- split the at-or-above suffix by hash
  set eb : MaterialParameterInfo → Bool :=
    fun q => decide (q.name.hash = p.name.hash) with hebdef
  set B1 := B.takeWhile eb with hB1def
  set B2 := B.dropWhile eb with hB2def
  have hB12 : B1 ++ B2 = B := List.takeWhile_append_dropWhile eb B
  have hsB : List.Pairwise keyLT B :=
    List.Pairwise.sublist (List.dropWhile_sublist kb) hs
  have hB1eq : ∀ q ∈ B1, q.name.hash = p.name.hash := by
    intro q hq
    have := List.mem_takeWhile_imp hq
    rw [hebdef] at this
    exact of_decide_eq_true this
  have hB1mem : ∀ q ∈ B1, q ∈ B := fun q hq =>
    (List.takeWhile_sublist eb).subset hq
  have hB1alt : ∀ q ∈ B1, assocIndexLT q p = false := fun q hq =>
    not_keyLT_alt_false (hBkey q (hB1mem q hq)) (hB1eq q hq)
  have hB2gt : ∀ q ∈ B2, p.name.hash < q.name.hash := by
    refine sorted_dropWhile_all hsB (fun x => ¬ keyLT x p)
      (fun x => p.name.hash < x.name.hash) eb hBkey ?_ ?_
    · intro x hQ hx
      rw [hebdef] at hx
      have h1 := of_decide_eq_false hx
      have h2 := not_keyLT_hash_ge hQ
      omega
    · intro x y hPx hxy
      have := keyLT_hash_le hxy
      omega
  -- the full four-zone decomposition
  have hsplit : infos = A1 ++ (A2 ++ (B1 ++ B2)) := by
    rw [← hAB, ← hA12, ← hB12]
    simp [List.append_assoc]
  have hashmap : (fun q : MaterialParameterInfo => q.name.hash) = fun q => q.name.hash := rfl
  -- stage 1: the hash lower bound is |A1|
  have hlower : lowerBoundCount (fun x => decide (x < p.name.hash)) e.nameHashes
      = A1.length := by
    rw [hm]
    show lowerBoundCount _ (infos.map fun q => q.name.hash) = _
    rw [hsplit, List.map_append]
    rw [lbc_append_all _ _ _ ?_]
    · rw [lbc_eq_zero_of_all _ _ ?_]
      · rw [List.length_map]
        omega
      · intro y hy
        rw [List.mem_map] at hy
        obtain ⟨q, hq, rfl⟩ := hy
        rcases List.mem_append.mp hq with hq2 | hq3
        · have := hA2eq q hq2
          simp [this]
        · rcases List.mem_append.mp hq3 with hqb1 | hqb2
          · have := hB1eq q hqb1
            simp [this]
          · have := hB2gt q hqb2
            simp only [decide_eq_false_iff_not]
            omega
    · intro y hy
      rw [List.mem_map] at hy
      obtain ⟨q, hq, rfl⟩ := hy
      have := hA1lt q hq
      simp [this]
  -- stage 2: the hash upper bound adds the equal-hash run |A2| + |B1|
  have hupper : lowerBoundCount (fun x => decide (x ≤ p.name.hash))
      (e.nameHashes.drop A1.length) = A2.length + B1.length := by
    rw [hm]
    show lowerBoundCount _ ((infos.map fun q => q.name.hash).drop A1.length) = _
    rw [hsplit, List.map_append, ← List.length_map A1 (fun q => q.name.hash),
      List.drop_left]
    have hassoc : A2 ++ (B1 ++ B2) = (A2 ++ B1) ++ B2 := by
      simp [List.append_assoc]
    rw [hassoc, List.map_append]
    rw [lbc_append_all _ _ _ ?_]
    · rw [lbc_eq_zero_of_all _ _ ?_]
      · rw [List.length_map, List.length_append]
        omega
      · intro y hy
        rw [List.mem_map] at hy
        obtain ⟨q, hq, rfl⟩ := hy
        have := hB2gt q hq
        simp only [decide_eq_false_iff_not]
        omega
    · intro y hy
      rw [List.mem_map] at hy
      obtain ⟨q, hq, rfl⟩ := hy
      rcases List.mem_append.mp hq with hq2 | hq3
      · have := hA2eq q hq2
        simp [this]
      · have := hB1eq q hq3
        simp [this]
  -- stage 3: the (association, index) lower bound inside the run is |A2|
  have hinner : lowerBoundCount (fun q => assocIndexLT q p)
      ((infos.drop A1.length).take (A2.length + B1.length)) = A2.length := by
    have hdrop : infos.drop A1.length = A2 ++ (B1 ++ B2) := by
      rw [hsplit, List.drop_left]
    have hassoc : A2 ++ (B1 ++ B2) = (A2 ++ B1) ++ B2 := by
      simp [List.append_assoc]
    have htake : (infos.drop A1.length).take (A2.length + B1.length) =
        A2 ++ B1 := by
      rw [hdrop, hassoc, ← List.length_append A2 B1, List.take_left]
    rw [htake]
    rw [lbc_append_all _ _ _ hA2alt, lbc_eq_zero_of_all _ _ hB1alt]
    omega
  -- assemble
  have hlen : e.nameHashes.length = infos.length := by
    rw [hm, List.length_map]
  have hlenInf : infos.length =
      A1.length + (A2.length + (B1.length + B2.length)) := by
    rw [hsplit]
    simp [List.length_append]
  have hAlen : A.length = A1.length + A2.length := by
    rw [← hA12, List.length_append]
  show (let nameHash := p.name.hash
    let lowerIndex := lowerBoundCount (fun h => decide (h < nameHash)) e.nameHashes
    if lowerIndex < e.nameHashes.length then
      let upperIndex := lowerIndex +
        lowerBoundCount (fun h => decide (h ≤ nameHash)) (e.nameHashes.drop lowerIndex)
      if 0 < upperIndex - lowerIndex then
        lowerIndex + lowerBoundCount (fun q => assocIndexLT q p)
          ((e.parameterInfos.drop lowerIndex).take (upperIndex - lowerIndex))
      else lowerIndex
    else lowerIndex) = A.length
  simp only [hlower, hupper, hlen, hlenInf, hAlen]
  by_cases hRne : A2.length + (B1.length + B2.length) = 0
  · rw [if_neg (by omega)]
    omega
  · rw [if_pos (by omega)]
    have hsub : A1.length + (A2.length + B1.length) - A1.length =
        A2.length + B1.length := by omega
    simp only [hsub]
    by_cases hrun : A2.length + B1.length = 0
    · rw [if_neg (by omega)]
      omega
    · rw [if_pos (by omega)]
      rw [hinner]

end MaterialCachedData

namespace MaterialCachedData

theorem dropWhile_keyLT_not (l : List MaterialParameterInfo)
    (hs : List.Pairwise keyLT l) (p : MaterialParameterInfo) :
    ∀ b ∈ l.dropWhile (fun q => decide (keyLT q p)), ¬ keyLT b p := by
  refine sorted_dropWhile_all hs (fun _ => True) (fun x => ¬ keyLT x p) _
    (fun _ _ => trivial) ?_ ?_
  · intro x _ hx
    exact of_decide_eq_false hx
  · exact fun x y hPx hxy hyp => hPx (keyLT_trans hxy hyp)

theorem getD_append_cons_self (A : List MaterialParameterInfo)
    (p : MaterialParameterInfo) (B : List MaterialParameterInfo)
    (d : MaterialParameterInfo) : (A ++ p :: B).getD A.length d = p := by
  induction A with
  | nil => rfl
  | cons a t ih => simpa using ih

/-- In a well-formed table the two-stage binary search finds a stored
parameter at exactly the index where it is stored. -/
theorem find_exact_of_mem (e : MaterialCachedParameterEntry)
    (hm : e.nameHashes = e.parameterInfos.map (fun q => q.name.hash))
    (hs : List.Pairwise keyLT e.parameterInfos)
    (p : MaterialParameterInfo) (hp : p ∈ e.parameterInfos) :
    findParameterLowerBoundIndex e p < e.parameterInfos.length ∧
      e.parameterInfos.getD (findParameterLowerBoundIndex e p)
        defaultParameterInfo = p := by
  have hfind := find_eq_takeWhile_length e hm hs p
  set kb : MaterialParameterInfo → Bool := fun q => decide (keyLT q p) with hkb
  set A := e.parameterInfos.takeWhile kb with hAdef
  set B := e.parameterInfos.dropWhile kb with hBdef
  have hAB : A ++ B = e.parameterInfos := List.takeWhile_append_dropWhile kb _
  have hBnot : ∀ b ∈ B, ¬ keyLT b p := dropWhile_keyLT_not _ hs p
  have hpA : p ∉ A := by
    intro hmem
    have := List.mem_takeWhile_imp hmem
    exact keyLT_irrefl p (of_decide_eq_true this)
  have hpB : p ∈ B := by
    rcases List.mem_append.mp (hAB ▸ hp) with h1 | h2
    · exact absurd h1 hpA
    · exact h2
  cases hBv : B with
  | nil => rw [hBv] at hpB; cases hpB
  | cons hd tl =>
    rw [hBv] at hpB hBnot hAB
    have hsB : List.Pairwise keyLT (hd :: tl) := by
      rw [← hAB] at hs
      exact (List.pairwise_append.mp hs).2.1
    have hphd : p = hd := by
      rcases List.mem_cons.mp hpB with h1 | h2
      · exact h1
      · exfalso
        exact hBnot hd (by simp) ((List.pairwise_cons.mp hsB).1 p h2)
    subst hphd
    constructor
    · rw [hfind, ← hAB]
      simp [List.length_append]
    · rw [hfind, ← hAB]
      exact getD_append_cons_self A p tl _

end MaterialCachedData

namespace MaterialCachedData

theorem listInsertAt_append (A B : List α) (x : α) :
    listInsertAt (A ++ B) A.length x = A ++ x :: B := by
  unfold listInsertAt
  rw [List.take_left, List.drop_left]

theorem listInsertAt_length (l : List α) (i : Nat) (x : α) (h : i ≤ l.length) :
    (listInsertAt l i x).length = l.length + 1 := by
  unfold listInsertAt
  simp [List.length_append, List.length_take, List.length_drop]
  omega

theorem info_ext {a b : MaterialParameterInfo} (hn : a.name = b.name)
    (ha : a.association = b.association) (hi : a.index = b.index) : a = b := by
  cases a
  cases b
  simp_all

/-- One `TryAddParameter` call preserves well-formedness (given the new name
collides with no stored one), stores the parameter, and neither drops nor
invents any other row. -/
theorem tryAddParameter_step (e : MaterialCachedParameterEntry)
    (p : MaterialParameterInfo) (g : Option Nat) (ov : Bool)
    (hwf : entryWF e) (hcomp : hashCompatible e p.name) :
    entryWF (tryAddParameter e p g ov).1 ∧
    p ∈ (tryAddParameter e p g ov).1.parameterInfos ∧
    (∀ q ∈ e.parameterInfos, q ∈ (tryAddParameter e p g ov).1.parameterInfos) ∧
    (∀ q ∈ (tryAddParameter e p g ov).1.parameterInfos,
      q = p ∨ q ∈ e.parameterInfos) := by
  obtain ⟨hm, hg, ho, hs⟩ := hwf
  have hfind := find_eq_takeWhile_length e hm hs p
  set i := findParameterLowerBoundIndex e p with hidef
  set kb : MaterialParameterInfo → Bool := fun q => decide (keyLT q p) with hkb
  set A := e.parameterInfos.takeWhile kb with hAdef
  set B := e.parameterInfos.dropWhile kb with hBdef
  have hAB : A ++ B = e.parameterInfos := List.takeWhile_append_dropWhile kb _
  have hAkey : ∀ a ∈ A, keyLT a p := by
    intro a ha
    have := List.mem_takeWhile_imp ha
    rw [hkb] at this
    exact of_decide_eq_true this
  have hBnot : ∀ b ∈ B, ¬ keyLT b p := dropWhile_keyLT_not _ hs p
  have hlenh : e.nameHashes.length = e.parameterInfos.length := by
    rw [hm, List.length_map]
  by_cases hins : i ≥ e.nameHashes.length ∨
      e.parameterInfos.getD i defaultParameterInfo ≠ p
  · -- the parameter is new: it is inserted at the computed position
    have hval : tryAddParameter e p g ov =
        (⟨listInsertAt e.nameHashes i p.name.hash,
          listInsertAt e.parameterInfos i p,
          listInsertAt e.expressionGuids i g,
          listInsertAt e.overrides i ov⟩, some i) := by
      unfold tryAddParameter
      rw [← hidef, if_pos hins]
    -- every element of the kept suffix is strictly above the probe
    have hBgt : ∀ b ∈ B, keyLT p b := by
      intro b hb
      by_contra hnot
      have hkey := key_eq_of_not_lt (hBnot b hb) hnot
      have hbmem : b ∈ e.parameterInfos := by
        rw [← hAB]
        exact List.mem_append.mpr (Or.inr hb)
      have hname : b.name = p.name := hcomp b hbmem hkey.1
      have hbp : b = p := info_ext hname hkey.2.1 hkey.2.2
      subst hbp
      have hex := find_exact_of_mem e hm hs b hbmem
      rw [← hidef] at hex
      rcases hins with h1 | h2
      · omega
      · exact h2 hex.2
    have hiA : i = A.length := hfind
    have hinsP : listInsertAt e.parameterInfos i p = A ++ p :: B := by
      rw [hiA, ← hAB]
      exact listInsertAt_append A B p
    have hiLe : i ≤ e.parameterInfos.length := by
      rw [hiA, ← hAB]
      simp [List.length_append]
    rw [hval]
    refine ⟨⟨?_, ?_, ?_, ?_⟩, ?_, ?_, ?_⟩
    · -- the hash array still mirrors the info array
      show listInsertAt e.nameHashes i p.name.hash =
        (listInsertAt e.parameterInfos i p).map (fun q => q.name.hash)
      rw [hinsP, hm, ← hAB, List.map_append, hiA,
        ← List.length_map A (fun q => q.name.hash)]
      rw [listInsertAt_append, List.map_append, List.map_cons]
    · show (listInsertAt e.expressionGuids i g).length =
        (listInsertAt e.parameterInfos i p).length
      rw [listInsertAt_length _ _ _ (by omega), listInsertAt_length _ _ _ hiLe, hg]
    · show (listInsertAt e.overrides i ov).length =
        (listInsertAt e.parameterInfos i p).length
      rw [listInsertAt_length _ _ _ (by omega), listInsertAt_length _ _ _ hiLe, ho]
    · -- strict sortedness is preserved by inserting at the boundary
      show List.Pairwise keyLT (listInsertAt e.parameterInfos i p)
      rw [hinsP]
      rw [List.pairwise_append]
      have hsAB : List.Pairwise keyLT (A ++ B) := by rw [hAB]; exact hs
      obtain ⟨hpA2, hpB2, hcross⟩ := List.pairwise_append.mp hsAB
      refine ⟨hpA2, ?_, ?_⟩
      · rw [List.pairwise_cons]
        exact ⟨hBgt, hpB2⟩
      · intro a ha x hx
        rcases List.mem_cons.mp hx with rfl | hxb
        · exact hAkey a ha
        · exact hcross a ha x hxb
    · rw [hinsP]
      simp
    · intro q hq
      rw [hinsP]
      rw [← hAB] at hq
      rcases List.mem_append.mp hq with h1 | h2
      · exact List.mem_append.mpr (Or.inl h1)
      · exact List.mem_append.mpr (Or.inr (by simp [h2]))
    · intro q hq
      rw [hinsP] at hq
      rcases List.mem_append.mp hq with h1 | h2
      · exact Or.inr (by rw [← hAB]; exact List.mem_append.mpr (Or.inl h1))
      · rcases List.mem_cons.mp h2 with rfl | h3
        · exact Or.inl rfl
        · exact Or.inr (by rw [← hAB]; exact List.mem_append.mpr (Or.inr h3))
  · -- the parameter already exists: at most the guid is latched
    push_neg at hins
    obtain ⟨hlt, heq⟩ := hins
    have hval : tryAddParameter e p g ov =
        (if e.overrides.getD i false ∧ e.expressionGuids.getD i none = none then
          { e with expressionGuids := e.expressionGuids.set i g }
         else e, none) := by
      unfold tryAddParameter
      rw [← hidef, if_neg (by push_neg; exact ⟨hlt, heq⟩)]
    have hpmem : p ∈ e.parameterInfos := by
      rw [← heq]
      have hlt2 : i < e.parameterInfos.length := by omega
      rw [List.getD_eq_getElem _ _ hlt2]
      exact List.getElem_mem hlt2
    rw [hval]
    split
    · exact ⟨⟨hm, by simpa using hg, ho, hs⟩, hpmem, fun q hq => hq,
        fun q hq => Or.inr hq⟩
    · exact ⟨⟨hm, hg, ho, hs⟩, hpmem, fun q hq => hq, fun q hq => Or.inr hq⟩

end MaterialCachedData

namespace MaterialCachedData

theorem entriesOf_setEntry_same (cp : MaterialCachedParameters)
    (ty : MaterialParameterType) (e2 : MaterialCachedParameterEntry) :
    entriesOf (setEntry cp ty e2) ty = e2 := by
  cases ty <;> rfl

theorem entriesOf_setEntry_other (cp : MaterialCachedParameters)
    (ty ty2 : MaterialParameterType) (e2 : MaterialCachedParameterEntry)
    (h : ty2 ≠ ty) : entriesOf (setEntry cp ty e2) ty2 = entriesOf cp ty2 := by
  cases ty <;> cases ty2 <;> first | rfl | exact absurd rfl h

theorem zip_map_self (f : α → β) (l : List α) :
    (l.map f).zip l = l.map (fun a => (f a, a)) := by
  induction l with
  | nil => rfl
  | cons x t ih => simp [ih]

theorem keyLT_to_rowLE {a b : MaterialParameterInfo} (h : keyLT a b) :
    rowLE (a.name.hash, a) (b.name.hash, b) := by
  refine ⟨keyLT_hash_le h, fun hh => ?_⟩
  rcases h with h | ⟨_, hr⟩
  · omega
  · rcases hr with hr | ⟨ha, hi⟩
    · exact Or.inl hr
    · exact Or.inr ⟨ha, le_of_lt hi⟩

/-- The insertion sequence preserves per-kind well-formedness, keeps every
stored row, and ends with every request's parameter stored — provided all
request names are drawn from a collision-free pool `NS`. -/
theorem insertParameters_wf (NS : List MaterialName)
    (hNS : ∀ n1 ∈ NS, ∀ n2 ∈ NS, n1.hash = n2.hash → n1 = n2) :
    ∀ reqs : List ParameterInsertion, (∀ r ∈ reqs, r.info.name ∈ NS) →
    ∀ cp : MaterialCachedParameters,
      (∀ ty, entryWF (entriesOf cp ty)) →
      (∀ ty, ∀ q ∈ (entriesOf cp ty).parameterInfos, q.name ∈ NS) →
      (∀ ty, entryWF (entriesOf (insertParameters cp reqs) ty)) ∧
      (∀ ty, ∀ q ∈ (entriesOf (insertParameters cp reqs) ty).parameterInfos,
        q.name ∈ NS) ∧
      (∀ ty, ∀ q ∈ (entriesOf cp ty).parameterInfos,
        q ∈ (entriesOf (insertParameters cp reqs) ty).parameterInfos) ∧
      (∀ r ∈ reqs,
        r.info ∈ (entriesOf (insertParameters cp reqs) r.kind).parameterInfos) := by
  intro reqs
  induction reqs with
  | nil =>
    intro _ cp h1 h2
    exact ⟨h1, h2, fun ty q hq => hq, by simp⟩
  | cons r rest ih =>
    intro hreq cp h1 h2
    have hcomp : hashCompatible (entriesOf cp r.kind) r.info.name := by
      intro q hq hh
      exact hNS q.name (h2 r.kind q hq) r.info.name (hreq r (by simp)) hh
    obtain ⟨hwf2, hmem2, hkeep2, hdom2⟩ :=
      tryAddParameter_step (entriesOf cp r.kind) r.info r.expressionGuid
        r.bOverride (h1 r.kind) hcomp
    have hstep : insertParameters cp (r :: rest) =
        insertParameters
          (tryAddParameterOfType cp r.kind r.info r.expressionGuid r.bOverride).1
          rest := rfl
    set cp2 := (tryAddParameterOfType cp r.kind r.info r.expressionGuid
      r.bOverride).1 with hcp2
    have hsame : entriesOf cp2 r.kind =
        (tryAddParameter (entriesOf cp r.kind) r.info r.expressionGuid
          r.bOverride).1 :=
      entriesOf_setEntry_same cp r.kind _
    have hother : ∀ ty, ty ≠ r.kind → entriesOf cp2 ty = entriesOf cp ty :=
      fun ty hty => entriesOf_setEntry_other cp r.kind ty _ hty
    have h1' : ∀ ty, entryWF (entriesOf cp2 ty) := by
      intro ty
      by_cases hty : ty = r.kind
      · rw [hty, hsame]
        exact hwf2
      · rw [hother ty hty]
        exact h1 ty
    have h2' : ∀ ty, ∀ q ∈ (entriesOf cp2 ty).parameterInfos, q.name ∈ NS := by
      intro ty q hq
      by_cases hty : ty = r.kind
      · rw [hty, hsame] at hq
        rcases hdom2 q hq with rfl | hold
        · exact hreq r (by simp)
        · exact h2 r.kind q hold
      · rw [hother ty hty] at hq
        exact h2 ty q hq
    have hkeep' : ∀ ty, ∀ q ∈ (entriesOf cp ty).parameterInfos,
        q ∈ (entriesOf cp2 ty).parameterInfos := by
      intro ty q hq
      by_cases hty : ty = r.kind
      · rw [hty, hsame]
        exact hkeep2 q (by rw [← hty]; exact hq)
      · rw [hother ty hty]
        exact hq
    obtain ⟨ih1, ih2, ih3, ih4⟩ :=
      ih (fun r2 hr2 => hreq r2 (by simp [hr2])) cp2 h1' h2'
    rw [hstep]
    refine ⟨ih1, ih2, ?_, ?_⟩
    · intro ty q hq
      exact ih3 ty q (hkeep' ty q hq)
    · intro r2 hr2
      rcases List.mem_cons.mp hr2 with rfl | hrest
      · exact ih3 r2.kind r2.info (by rw [hsame]; exact hmem2)
      · exact ih4 r2 hrest

end MaterialCachedData

/-- C3: after any sequence of `TryAddParameter` insertions whose parameter
names are hash-collision-free, every kind's table has a non-decreasing
name-hash array with (association, index) non-decreasing inside each run of
equal hashes, and the two-stage binary search finds every inserted
(name, association, index) triple at exactly the index where its row is
stored. -/
theorem material_parameter_table_sorted_lookup
    (reqs : List MaterialCachedData.ParameterInsertion)
    (hcoll : ∀ r ∈ reqs, ∀ r2 ∈ reqs,
      r.info.name.hash = r2.info.name.hash → r.info.name = r2.info.name) :
    (∀ ty, List.Chain' MaterialCachedData.rowLE
      ((MaterialCachedData.entriesOf
          (MaterialCachedData.insertParameters
            MaterialCachedData.emptyCachedParameters reqs) ty).nameHashes.zip
        (MaterialCachedData.entriesOf
          (MaterialCachedData.insertParameters
            MaterialCachedData.emptyCachedParameters reqs) ty).parameterInfos)) ∧
    (∀ r ∈ reqs,
      MaterialCachedData.findParameterLowerBoundIndex
          (MaterialCachedData.entriesOf
            (MaterialCachedData.insertParameters
              MaterialCachedData.emptyCachedParameters reqs) r.kind) r.info <
        (MaterialCachedData.entriesOf
          (MaterialCachedData.insertParameters
            MaterialCachedData.emptyCachedParameters reqs) r.kind).parameterInfos.length ∧
      (MaterialCachedData.entriesOf
          (MaterialCachedData.insertParameters
            MaterialCachedData.emptyCachedParameters reqs) r.kind).parameterInfos.getD
        (MaterialCachedData.findParameterLowerBoundIndex
          (MaterialCachedData.entriesOf
            (MaterialCachedData.insertParameters
              MaterialCachedData.emptyCachedParameters reqs) r.kind) r.info)
        MaterialCachedData.defaultParameterInfo = r.info) := by
  have hbase1 : ∀ ty, MaterialCachedData.entryWF
      (MaterialCachedData.entriesOf MaterialCachedData.emptyCachedParameters ty) := by
    intro ty
    cases ty <;> exact ⟨rfl, rfl, rfl, List.Pairwise.nil⟩
  set NS := reqs.map (fun r => r.info.name) with hNS0
  have hNS : ∀ n1 ∈ NS, ∀ n2 ∈ NS, n1.hash = n2.hash → n1 = n2 := by
    intro n1 h1 n2 h2 hh
    rw [hNS0, List.mem_map] at h1 h2
    obtain ⟨r1, hr1, rfl⟩ := h1
    obtain ⟨r2, hr2, rfl⟩ := h2
    exact hcoll r1 hr1 r2 hr2 hh
  have hreqNS : ∀ r ∈ reqs, r.info.name ∈ NS := by
    intro r hr
    rw [hNS0, List.mem_map]
    exact ⟨r, hr, rfl⟩
  have hbase2 : ∀ ty, ∀ q ∈ (MaterialCachedData.entriesOf
      MaterialCachedData.emptyCachedParameters ty).parameterInfos,
      q.name ∈ NS := by
    intro ty q hq
    cases ty <;> cases hq
  obtain ⟨hwf, _, _, hmemall⟩ :=
    MaterialCachedData.insertParameters_wf NS hNS reqs hreqNS
      MaterialCachedData.emptyCachedParameters hbase1 hbase2
  constructor
  · intro ty
    obtain ⟨hm, _, _, hsorted⟩ := hwf ty
    rw [hm, MaterialCachedData.zip_map_self]
    rw [List.chain'_map]
    exact List.Pairwise.chain'
      (hsorted.imp fun h => MaterialCachedData.keyLT_to_rowLE h)
  · intro r hr
    obtain ⟨hm, _, _, hsorted⟩ := hwf r.kind
    exact MaterialCachedData.find_exact_of_mem _ hm hsorted r.info (hmemall r hr)

/-- Witness for C3: two same-named parameters at different associations plus
a different-hash one, inserted as scalars. -/
theorem material_parameter_table_sorted_lookup_witness :
    (∀ ty, List.Chain' MaterialCachedData.rowLE
      ((MaterialCachedData.entriesOf
          (MaterialCachedData.insertParameters
            MaterialCachedData.emptyCachedParameters
            [⟨.Scalar, ⟨⟨7, 0⟩, .GlobalParameter, 0⟩, some 3, false⟩,
             ⟨.Scalar, ⟨⟨7, 0⟩, .LayerParameter, 1⟩, none, true⟩,
             ⟨.Scalar, ⟨⟨2, 0⟩, .GlobalParameter, 0⟩, some 5, false⟩]) ty).nameHashes.zip
        (MaterialCachedData.entriesOf
          (MaterialCachedData.insertParameters
            MaterialCachedData.emptyCachedParameters
            [⟨.Scalar, ⟨⟨7, 0⟩, .GlobalParameter, 0⟩, some 3, false⟩,
             ⟨.Scalar, ⟨⟨7, 0⟩, .LayerParameter, 1⟩, none, true⟩,
             ⟨.Scalar, ⟨⟨2, 0⟩, .GlobalParameter, 0⟩, some 5, false⟩]) ty).parameterInfos)) ∧
    (∀ r ∈ ([⟨.Scalar, ⟨⟨7, 0⟩, .GlobalParameter, 0⟩, some 3, false⟩,
             ⟨.Scalar, ⟨⟨7, 0⟩, .LayerParameter, 1⟩, none, true⟩,
             ⟨.Scalar, ⟨⟨2, 0⟩, .GlobalParameter, 0⟩, some 5, false⟩] :
        List MaterialCachedData.ParameterInsertion),
      MaterialCachedData.findParameterLowerBoundIndex
          (MaterialCachedData.entriesOf
            (MaterialCachedData.insertParameters
              MaterialCachedData.emptyCachedParameters
              [⟨.Scalar, ⟨⟨7, 0⟩, .GlobalParameter, 0⟩, some 3, false⟩,
               ⟨.Scalar, ⟨⟨7, 0⟩, .LayerParameter, 1⟩, none, true⟩,
               ⟨.Scalar, ⟨⟨2, 0⟩, .GlobalParameter, 0⟩, some 5, false⟩]) r.kind)
          r.info <
        (MaterialCachedData.entriesOf
          (MaterialCachedData.insertParameters
            MaterialCachedData.emptyCachedParameters
            [⟨.Scalar, ⟨⟨7, 0⟩, .GlobalParameter, 0⟩, some 3, false⟩,
             ⟨.Scalar, ⟨⟨7, 0⟩, .LayerParameter, 1⟩, none, true⟩,
             ⟨.Scalar, ⟨⟨2, 0⟩, .GlobalParameter, 0⟩, some 5, false⟩]) r.kind).parameterInfos.length ∧
      (MaterialCachedData.entriesOf
          (MaterialCachedData.insertParameters
            MaterialCachedData.emptyCachedParameters
            [⟨.Scalar, ⟨⟨7, 0⟩, .GlobalParameter, 0⟩, some 3, false⟩,
             ⟨.Scalar, ⟨⟨7, 0⟩, .LayerParameter, 1⟩, none, true⟩,
             ⟨.Scalar, ⟨⟨2, 0⟩, .GlobalParameter, 0⟩, some 5, false⟩]) r.kind).parameterInfos.getD
        (MaterialCachedData.findParameterLowerBoundIndex
          (MaterialCachedData.entriesOf
            (MaterialCachedData.insertParameters
              MaterialCachedData.emptyCachedParameters
              [⟨.Scalar, ⟨⟨7, 0⟩, .GlobalParameter, 0⟩, some 3, false⟩,
               ⟨.Scalar, ⟨⟨7, 0⟩, .LayerParameter, 1⟩, none, true⟩,
               ⟨.Scalar, ⟨⟨2, 0⟩, .GlobalParameter, 0⟩, some 5, false⟩]) r.kind)
          r.info)
        MaterialCachedData.defaultParameterInfo = r.info) :=
  material_parameter_table_sorted_lookup
    [⟨.Scalar, ⟨⟨7, 0⟩, .GlobalParameter, 0⟩, some 3, false⟩,
     ⟨.Scalar, ⟨⟨7, 0⟩, .LayerParameter, 1⟩, none, true⟩,
     ⟨.Scalar, ⟨⟨2, 0⟩, .GlobalParameter, 0⟩, some 5, false⟩]
    (by decide)
